import Mathlib

/-!
Shallow embedding of the `tatva-coloring` Rust crate (`src/lib.rs`).

The crate computes, from a CSR sparsity pattern (`row_ptr`, `col_idx`,
`n_dofs`), a distance-2 adjacency structure, a greedy coloring of it, and
one-hot seed vectors per color.  The PyO3 marshalling layer (array packing,
`as_slice`, the `i32` element cast on the returned color array) is thin
adaptation code and out of scope; the embedding covers the computational
pipeline: validation, CSR slicing, `distance2_adjacency`, `greedy_color`,
`seeds_from_colors`.

Modelling conventions:
* Rust `usize` values are `ℕ`; the cast `v as usize` of an `i64` is
  `intToUsize` (two's-complement wrap modulo `2 ^ 64`); the `usize::MAX`
  sentinel is the literal constant `USIZE_MAX`.
* `AHashSet<usize>` is `Finset ℕ` (contents only; iteration order is
  irrelevant once sorted, which `distance2_adjacencyWith` makes explicit by
  abstracting over the emission function).  The `AHashMap<usize, usize>`
  `used` in `greedy_color` is modelled by its key set: its values (hit
  counters) are written but never read.
* Operations that can panic in Rust (slice ranges, `Vec` indexing) return
  `Option`; the entry point distinguishes the checked validation error from
  a panic via `CsError`.  The `usize` addition `n_dofs + 1` in the length
  validation wraps modulo `2 ^ 64` (release semantics), so the comparison is
  modelled on both sides modulo `2 ^ 64`.
* Seed entries (`f64`, only ever the literals `0.0` and `1.0`, never
  combined arithmetically) are embedded as `ℚ`.
-/

/-- Rust `usize::MAX`, the sentinel for an unassigned color in
`greedy_color`. -/
def USIZE_MAX : ℕ := 2 ^ 64 - 1

/-- The Rust cast `v as usize` applied to an `i64` value: two's-complement
reinterpretation modulo `2 ^ 64`. -/
def intToUsize (v : Int) : ℕ := (v % 2 ^ 64).toNat

/-- The Rust slice `&l[s..e]`: `none` models the panic when `s > e` or
`e > l.len()`. -/
def sliceRange (l : List Int) (s e : ℕ) : Option (List Int) :=
  if s ≤ e ∧ e ≤ l.length then some ((l.drop s).take (e - s)) else none

/-- The adjacency-building loop of `distance2_color_and_seeds`: for each
`i < n_dofs`, `adjacency[i]` is `col_idx[row_ptr[i] as usize .. row_ptr[i+1]
as usize]` with every element cast to `usize`. -/
def buildAdjacency (row_ptr col_idx : List Int) (n_dofs : ℕ) :
    Option (List (List ℕ)) :=
  (List.range n_dofs).mapM (fun i => do
    let s ← row_ptr[i]?
    let e ← row_ptr[i + 1]?
    let slice ← sliceRange col_idx (intToUsize s) (intToUsize e)
    pure (slice.map intToUsize))

/-- `sets[j].insert(v)` on a `Vec<AHashSet<usize>>`: `none` models the panic
when `j` is out of bounds. -/
def insertAt (sets : List (Finset ℕ)) (j v : ℕ) : Option (List (Finset ℕ)) :=
  match sets[j]? with
  | none => none
  | some s => some (sets.set j (insert v s))

/-- The paired insertion `adj2[a].insert(b); adj2[b].insert(a);` from
`distance2_adjacency`. -/
def d2Pair (sets : List (Finset ℕ)) (a b : ℕ) : Option (List (Finset ℕ)) :=
  match insertAt sets a b with
  | none => none
  | some sets1 => insertAt sets1 b a

/-- Body of the innermost loop of `distance2_adjacency`:
`if k != i { adj2[i].insert(k); adj2[k].insert(i); }`. -/
def d2Inner (i : ℕ) (sets : List (Finset ℕ)) (k : ℕ) :
    Option (List (Finset ℕ)) :=
  if k ≠ i then d2Pair sets i k else some sets

/-- Body of the middle loop of `distance2_adjacency` for one 1-hop neighbor
`j` of `i`: the guarded direct insertion, the read of `adjacency[j]` (which
panics when `j` is out of bounds), and the innermost loop over it. -/
def d2RowStep (adjacency : List (List ℕ)) (i : ℕ) (sets : List (Finset ℕ))
    (j : ℕ) : Option (List (Finset ℕ)) :=
  match (if i ≠ j then d2Pair sets i j else some sets) with
  | none => none
  | some sets1 =>
    match adjacency[j]? with
    | none => none
    | some adjJ => adjJ.foldlM (d2Inner i) sets1

/-- The middle loop of `distance2_adjacency`: `for &j in neighs { ... }`. -/
def d2Row (adjacency : List (List ℕ)) (i : ℕ) (sets0 : List (Finset ℕ))
    (neighs : List ℕ) : Option (List (Finset ℕ)) :=
  neighs.foldlM (d2RowStep adjacency i) sets0

/-- The accumulation phase of `distance2_adjacency`: starting from `n` empty
sets, run the nested loops over `adjacency.iter().enumerate()`. -/
def d2Sets (adjacency : List (List ℕ)) : Option (List (Finset ℕ)) :=
  adjacency.enum.foldlM (fun sets p => d2Row adjacency p.1 sets p.2)
    (List.replicate adjacency.length ∅)

/-- The canonical result of `set.into_iter().collect::<Vec<_>>()` followed by
`sort_unstable()`: the ascending list of the set's elements (computed by an
ascending scan so that it evaluates by kernel reduction; `sortFinset_eq_sort`
below proves it equal to `Finset.sort (· ≤ ·)`). -/
def sortFinset (s : Finset ℕ) : List ℕ :=
  (List.range (s.sup id + 1)).filter (fun x => decide (x ∈ s))

/-- `distance2_adjacency`, abstracted over the function `emit` that turns each
accumulated hash set into the final vector (in the source: iterate the set in
its hash order and sort the result). -/
def distance2_adjacencyWith (emit : Finset ℕ → List ℕ)
    (adjacency : List (List ℕ)) : Option (List (List ℕ)) :=
  match d2Sets adjacency with
  | none => none
  | some sets => some (sets.map emit)

/-- `distance2_adjacency` from the source: accumulate symmetrized pair
insertions into per-DOF sets, then emit each set as a sorted, duplicate-free
vector. -/
def distance2_adjacency (adjacency : List (List ℕ)) :
    Option (List (List ℕ)) :=
  distance2_adjacencyWith sortFinset adjacency

/-- Contract of an emission function: it produces the elements of the set in
nondecreasing order, i.e. some hash-iteration order of the set followed by
`sort_unstable()`. -/
def EmitSpec (emit : Finset ℕ → List ℕ) : Prop :=
  ∀ s : Finset ℕ, List.Sorted (· ≤ ·) (emit s) ∧ (emit s).Perm (sortFinset s)

/-- The scan `while used.contains_key(&c) { c += 1; }` with explicit fuel. -/
def freeScan (used : Finset ℕ) : ℕ → ℕ → ℕ
  | 0, c => c
  | fuel + 1, c => if c ∈ used then freeScan used fuel (c + 1) else c

/-- The smallest color not in `used`, as computed by the `while` loop of
`greedy_color` starting at `0` (fuel `used.card + 1` always suffices). -/
def smallestFree (used : Finset ℕ) : ℕ := freeScan used (used.card + 1) 0

/-- The forbidden-color set collected for DOF `i` in `greedy_color`: colors
of neighbors that are in range (`colors.get(nb)` succeeds) and assigned
(`!= usize::MAX`). -/
def usedColors (colors : List ℕ) (neighs : List ℕ) : Finset ℕ :=
  (neighs.filterMap (fun nb =>
    match colors[nb]? with
    | some c => if c ≠ USIZE_MAX then some c else none
    | none => none)).toFinset

/-- One iteration of the coloring loop of `greedy_color`: collect the
forbidden colors of `p.2 = adjacency[p.1]` and store the smallest free color
at index `p.1`. -/
def greedyStep (colors : List ℕ) (p : ℕ × List ℕ) : List ℕ :=
  colors.set p.1 (smallestFree (usedColors colors p.2))

/-- `greedy_color` from the source: colors start as `usize::MAX` and each DOF
in increasing index order receives the smallest color unused among its
already-colored neighbors. -/
def greedy_color (adjacency : List (List ℕ)) : List ℕ :=
  adjacency.enum.foldl greedyStep (List.replicate adjacency.length USIZE_MAX)

/-- One iteration of the seed-filling loop of `seeds_from_colors`:
`if c == color { seed[idx] = 1.0 }`. -/
def seedStep (color : ℕ) (seed : List ℚ) (p : ℕ × ℕ) : List ℚ :=
  if p.2 = color then seed.set p.1 1 else seed

/-- `seeds_from_colors` from the source: for an empty coloring return no
seeds, otherwise one vector per color in `0 ..= max_color`, each all zeros
with `1.0` at the indices holding that color. -/
def seeds_from_colors (colors : List ℕ) : List (List ℚ) :=
  if colors = [] then []
  else
    (List.range (colors.max?.getD 0 + 1)).map (fun color =>
      colors.enum.foldl (seedStep color) (List.replicate colors.length (0 : ℚ)))

/-- Decidable equality of `Except` results, for evaluating the entry point on
concrete inputs. -/
instance {ε α : Type} [DecidableEq ε] [DecidableEq α] : DecidableEq (Except ε α) :=
  fun a b =>
    match a, b with
    | Except.error e, Except.error f => decidable_of_iff (e = f) (by simp)
    | Except.error _, Except.ok _ => isFalse (fun hc => Except.noConfusion hc)
    | Except.ok _, Except.error _ => isFalse (fun hc => Except.noConfusion hc)
    | Except.ok x, Except.ok y => decidable_of_iff (x = y) (by simp)

/-- Failure modes of the entry point: the checked `PyValueError`
(`InvalidArgument`) raised by the length validation, versus a Rust panic from
an out-of-bounds slice or index on malformed input. -/
inductive CsError where
  | invalidArgument : CsError
  | outOfBounds : CsError
deriving DecidableEq, Repr

/-- The entry point `distance2_color_and_seeds`, abstracted over the hash-set
emission function of `distance2_adjacency`.  The validation
`row_ptr.len() != n_dofs + 1` is a `usize` comparison: the addition
`n_dofs + 1` wraps modulo `2 ^ 64` (release semantics; a debug build would
instead panic on the overflowing addition at `n_dofs = usize::MAX`), and
`row_ptr.len()` is itself a `usize`, so both sides are reduced modulo
`2 ^ 64` (the identity on the length of any realizable slice). -/
def distance2_color_and_seedsWith (emit : Finset ℕ → List ℕ)
    (row_ptr col_idx : List Int) (n_dofs : ℕ) :
    Except CsError (List ℕ × List (List ℚ)) :=
  if row_ptr.length % 2 ^ 64 ≠ (n_dofs + 1) % 2 ^ 64 then
    Except.error CsError.invalidArgument
  else
    match buildAdjacency row_ptr col_idx n_dofs with
    | none => Except.error CsError.outOfBounds
    | some adjacency =>
      match distance2_adjacencyWith emit adjacency with
      | none => Except.error CsError.outOfBounds
      | some adjacency2 =>
        let colors := greedy_color adjacency2
        Except.ok (colors, seeds_from_colors colors)

/-- The entry point `distance2_color_and_seeds` from the source. -/
def distance2_color_and_seeds (row_ptr col_idx : List Int) (n_dofs : ℕ) :
    Except CsError (List ℕ × List (List ℚ)) :=
  distance2_color_and_seedsWith sortFinset row_ptr col_idx n_dofs

/-- Undirected edge of the symmetrized 1-hop graph: `b` is listed in `a`'s
row or `a` in `b`'s row. -/
def symEdge (adjacency : List (List ℕ)) (a b : ℕ) : Prop :=
  b ∈ adjacency.getD a [] ∨ a ∈ adjacency.getD b []

/-- Modelled from the spec's words (for comparison with the code): `m` is
distance-2 adjacent to `i` when `m ≠ i` and `m` is reachable from `i` in at
most two hops in the symmetrized 1-hop graph. -/
def specDist2 (adjacency : List (List ℕ)) (i m : ℕ) : Prop :=
  i ≠ m ∧ (symEdge adjacency i m ∨
    ∃ j < adjacency.length, symEdge adjacency i j ∧ symEdge adjacency j m)

/-- What the accumulation loops of `distance2_adjacency` actually record for
the pair `(i, m)`: a directed path of length at most two from `i` to `m` or
from `m` to `i` in the 1-hop lists. -/
def codeDist2 (adjacency : List (List ℕ)) (i m : ℕ) : Prop :=
  i ≠ m ∧ (m ∈ adjacency.getD i [] ∨ i ∈ adjacency.getD m [] ∨
    (∃ j, j ∈ adjacency.getD i [] ∧ m ∈ adjacency.getD j []) ∨
    (∃ j, j ∈ adjacency.getD m [] ∧ i ∈ adjacency.getD j []))

/-- `b` is recorded in the accumulation set of DOF `a` (out-of-range `a` has
an empty set). -/
def memAt (sets : List (Finset ℕ)) (a b : ℕ) : Prop := b ∈ sets.getD a ∅

/-- Growth relation of the accumulation phase: lengths agree and recorded
pairs persist. -/
def SetsMono (s1 s2 : List (Finset ℕ)) : Prop :=
  s1.length = s2.length ∧ ∀ a b, memAt s1 a b → memAt s2 a b

/-- Soundness invariant of the accumulation phase: every recorded pair is
in range, off-diagonal, symmetric, and justified by a directed path of
length at most two. -/
def D2Inv (adjacency : List (List ℕ)) (sets : List (Finset ℕ)) : Prop :=
  sets.length = adjacency.length ∧
  ∀ a b, memAt sets a b →
    a < adjacency.length ∧ b < adjacency.length ∧ a ≠ b ∧ memAt sets b a ∧
      codeDist2 adjacency a b

/-- Invariant of the coloring loop of `greedy_color` after the first `t`
DOFs have been processed: the array length is fixed, unprocessed entries
still hold the sentinel, and every processed entry holds a non-sentinel
color that differs from the colors of its processed neighbors and whose
smaller values are all in use by processed DOFs. -/
def GreedyInv (g : List (List ℕ)) (t : ℕ) (colors : List ℕ) : Prop :=
  colors.length = g.length ∧
  (∀ k, t ≤ k → colors[k]? = if k < g.length then some USIZE_MAX else none) ∧
  (∀ k c, k < t → colors[k]? = some c → c ≠ USIZE_MAX ∧
    (∀ j, j ∈ g.getD k [] → j < t → colors[j]? ≠ some c) ∧
    (∀ c', c' < c → ∃ m, m < t ∧ colors[m]? = some c'))

/-! ## Generic lemmas about `Option`-monadic folds and maps -/

/-- An invariant preserved by every successful step of an `Option` fold is
preserved by the whole fold. -/
theorem foldlM_option_inv {α β : Type} (P : β → Prop) (f : β → α → Option β) :
    ∀ (l : List α), (∀ b a b', a ∈ l → f b a = some b' → P b → P b') →
      ∀ (b b' : β), l.foldlM f b = some b' → P b → P b' := by
  intro l
  induction l with
  | nil =>
    intro _ b b' h hb
    simp only [List.foldlM_nil, pure] at h
    cases h
    exact hb
  | cons a l ih =>
    intro hf b b' h hb
    rw [List.foldlM_cons] at h
    simp only [bind, Option.bind_eq_some] at h
    obtain ⟨b1, hb1, hrest⟩ := h
    exact ih (fun x y z hy => hf x y z (by simp [hy])) b1 b' hrest
      (hf b a b1 (by simp) hb1 hb)

/-- If every step of an `Option` fold succeeds from any state satisfying an
invariant, the whole fold succeeds and the invariant holds at the end. -/
theorem foldlM_option_total {α β : Type} (P : β → Prop) (f : β → α → Option β) :
    ∀ (l : List α), (∀ a, a ∈ l → ∀ b, P b → ∃ b', f b a = some b' ∧ P b') →
      ∀ b, P b → ∃ b', l.foldlM f b = some b' ∧ P b' := by
  intro l
  induction l with
  | nil =>
    intro _ b hb
    exact ⟨b, by simp [List.foldlM_nil, pure], hb⟩
  | cons a l ih =>
    intro hstep b hb
    obtain ⟨b1, hb1, hPb1⟩ := hstep a (by simp) b hb
    obtain ⟨b', hb', hPb'⟩ := ih (fun x hx => hstep x (by simp [hx])) b1 hPb1
    refine ⟨b', ?_, hPb'⟩
    rw [List.foldlM_cons]
    simp only [bind, Option.bind_eq_some]
    exact ⟨b1, hb1, hb'⟩

/-- A reflexive-transitive growth relation established by every step of an
`Option` fold relates its initial and final states. -/
theorem foldlM_option_mono {α β : Type} (Mono : β → β → Prop) (f : β → α → Option β)
    (hrefl : ∀ b, Mono b b)
    (htrans : ∀ b1 b2 b3, Mono b1 b2 → Mono b2 b3 → Mono b1 b3)
    (hf : ∀ b a b', f b a = some b' → Mono b b') :
    ∀ (l : List α) (b b' : β), l.foldlM f b = some b' → Mono b b' := by
  intro l
  induction l with
  | nil =>
    intro b b' h
    simp only [List.foldlM_nil, pure] at h
    cases h
    exact hrefl b
  | cons a l ih =>
    intro b b' h
    rw [List.foldlM_cons] at h
    simp only [bind, Option.bind_eq_some] at h
    obtain ⟨b1, hb1, hrest⟩ := h
    exact htrans b b1 b' (hf b a b1 hb1) (ih b1 b' hrest)

/-- A per-element property established by each step of an `Option` fold and
preserved under the fold's growth relation holds of the final state for every
element of the list. -/
theorem foldlM_option_mem {α β : Type} (Mono : β → β → Prop) (Q : α → β → Prop)
    (f : β → α → Option β)
    (hrefl : ∀ b, Mono b b)
    (htrans : ∀ b1 b2 b3, Mono b1 b2 → Mono b2 b3 → Mono b1 b3)
    (hf : ∀ b a b', f b a = some b' → Mono b b')
    (hQmono : ∀ a b b', Q a b → Mono b b' → Q a b') :
    ∀ (l : List α), (∀ b a b', a ∈ l → f b a = some b' → Q a b') →
      ∀ (b b' : β), l.foldlM f b = some b' → ∀ a, a ∈ l → Q a b' := by
  intro l
  induction l with
  | nil => intro _ b b' _ a ha; cases ha
  | cons x l ih =>
    intro hQstep b b' h a ha
    rw [List.foldlM_cons] at h
    simp only [bind, Option.bind_eq_some] at h
    obtain ⟨b1, hb1, hrest⟩ := h
    rcases List.mem_cons.mp ha with hax | hal
    · subst hax
      exact hQmono a b1 b' (hQstep b a b1 (by simp) hb1)
        (foldlM_option_mono Mono f hrefl htrans hf l b1 b' hrest)
    · exact ih (fun x y z hy => hQstep x y z (by simp [hy])) b1 b' hrest a hal

/-- Shape of a successful `Option`-monadic `mapM`: same length, and each
output entry is the successful image of the corresponding input entry. -/
theorem mapM_option_eq_some {α β : Type} (f : α → Option β) :
    ∀ (l : List α) (l' : List β), l.mapM f = some l' →
      l'.length = l.length ∧
      ∀ (i : ℕ) (a : α), l[i]? = some a → ∃ b, f a = some b ∧ l'[i]? = some b := by
  intro l
  induction l with
  | nil =>
    intro l' h
    simp only [List.mapM_nil, pure] at h
    cases h
    simp
  | cons a l ih =>
    intro l' h
    rw [List.mapM_cons] at h
    simp only [bind, Option.bind_eq_some, pure] at h
    obtain ⟨b, hb, l'', hl'', hcons⟩ := h
    cases hcons
    obtain ⟨hlen, hget⟩ := ih l'' hl''
    constructor
    · simp [hlen]
    · intro i x hx
      cases i with
      | zero =>
        rw [List.getElem?_cons_zero] at hx
        cases hx
        exact ⟨b, hb, by simp⟩
      | succ i =>
        rw [List.getElem?_cons_succ] at hx
        obtain ⟨y, hy, hy'⟩ := hget i x hx
        exact ⟨y, hy, by simpa using hy'⟩

/-- An `Option`-monadic `mapM` whose function succeeds on every element
succeeds. -/
theorem mapM_option_total {α β : Type} (f : α → Option β) :
    ∀ (l : List α), (∀ a, a ∈ l → ∃ b, f a = some b) →
      ∃ l', l.mapM f = some l' := by
  intro l
  induction l with
  | nil => intro _; exact ⟨[], rfl⟩
  | cons a l ih =>
    intro h
    obtain ⟨b, hb⟩ := h a (by simp)
    obtain ⟨l', hl'⟩ := ih (fun x hx => h x (by simp [hx]))
    refine ⟨b :: l', ?_⟩
    rw [List.mapM_cons]
    simp only [bind, Option.bind_eq_some, pure]
    exact ⟨b, hb, l', hl', rfl⟩

/-! ## Properties of `sortFinset` -/

/-- `sortFinset` enumerates exactly the elements of the set. -/
theorem mem_sortFinset {s : Finset ℕ} {x : ℕ} : x ∈ sortFinset s ↔ x ∈ s := by
  unfold sortFinset
  simp only [List.mem_filter, List.mem_range, decide_eq_true_eq]
  constructor
  · rintro ⟨_, h⟩; exact h
  · intro h
    refine ⟨?_, h⟩
    have hle : id x ≤ s.sup id := Finset.le_sup h
    exact Nat.lt_succ_of_le hle

/-- `sortFinset` is strictly sorted. -/
theorem sortFinset_sorted_lt (s : Finset ℕ) :
    List.Sorted (· < ·) (sortFinset s) :=
  List.Pairwise.filter _ (List.pairwise_lt_range _)

/-- `sortFinset` is sorted in nondecreasing order. -/
theorem sortFinset_sorted_le (s : Finset ℕ) :
    List.Sorted (· ≤ ·) (sortFinset s) :=
  List.Pairwise.imp le_of_lt (sortFinset_sorted_lt s)

/-- `sortFinset` has no duplicates. -/
theorem sortFinset_nodup (s : Finset ℕ) : (sortFinset s).Nodup :=
  List.Nodup.filter _ (List.nodup_range _)

/-- `sortFinset` agrees with Mathlib's canonical sorted enumeration of a
finite set. -/
theorem sortFinset_eq_sort (s : Finset ℕ) : sortFinset s = s.sort (· ≤ ·) := by
  refine List.eq_of_perm_of_sorted ?_ (sortFinset_sorted_le s) (Finset.sort_sorted _ s)
  refine List.perm_of_nodup_nodup_toFinset_eq (sortFinset_nodup s) (Finset.sort_nodup _ s) ?_
  rw [Finset.sort_toFinset]
  ext x
  simp [List.mem_toFinset, mem_sortFinset]

/-- A sorted list that is a permutation of `sortFinset s` is `sortFinset s`:
the output of `sort_unstable` does not depend on the hash-iteration order. -/
theorem emitSpec_eq_sortFinset {emit : Finset ℕ → List ℕ} (h : EmitSpec emit)
    (s : Finset ℕ) : emit s = sortFinset s :=
  List.eq_of_perm_of_sorted (h s).2 (h s).1 (sortFinset_sorted_le s)

/-! ## Properties of `smallestFree` -/

/-- Specification of the fuelled `while` scan: if a value outside `used`
exists in the scanned window, the scan returns the least value outside
`used` that is at least the starting point. -/
theorem freeScan_spec (used : Finset ℕ) :
    ∀ (fuel c : ℕ), (∃ d, d ∉ used ∧ c ≤ d ∧ d < c + fuel) →
      freeScan used fuel c ∉ used ∧ c ≤ freeScan used fuel c ∧
        ∀ e, c ≤ e → e < freeScan used fuel c → e ∈ used := by
  intro fuel
  induction fuel with
  | zero =>
    rintro c ⟨d, _, h1, h2⟩
    omega
  | succ fuel ih =>
    intro c hd
    by_cases hc : c ∈ used
    · obtain ⟨d, hdfree, hcd, hlt⟩ := hd
      have hdc : d ≠ c := fun h => hdfree (h ▸ hc)
      obtain ⟨h1, h2, h3⟩ := ih (c + 1) ⟨d, hdfree, by omega, by omega⟩
      rw [freeScan, if_pos hc]
      refine ⟨h1, by omega, ?_⟩
      intro e hce helt
      rcases Nat.eq_or_lt_of_le hce with heq | hgt
      · exact heq ▸ hc
      · exact h3 e hgt helt
    · rw [freeScan, if_neg hc]
      exact ⟨hc, le_refl c, fun e h1 h2 => absurd (lt_of_le_of_lt h1 h2) (Nat.lt_irrefl c)⟩

/-- Pigeonhole: some value at most `used.card` lies outside `used`. -/
theorem exists_free_le_card (used : Finset ℕ) :
    ∃ d, d ∉ used ∧ d ≤ used.card := by
  by_contra h
  push_neg at h
  have hsub : Finset.range (used.card + 1) ⊆ used := by
    intro x hx
    by_contra hxu
    have := h x hxu
    rw [Finset.mem_range] at hx
    omega
  have hc := Finset.card_le_card hsub
  rw [Finset.card_range] at hc
  omega

/-- The color chosen by the `while` loop is not forbidden. -/
theorem smallestFree_not_mem (used : Finset ℕ) : smallestFree used ∉ used := by
  obtain ⟨d, hd, hdc⟩ := exists_free_le_card used
  exact (freeScan_spec used (used.card + 1) 0 ⟨d, hd, by omega, by omega⟩).1

/-- Every color below the chosen one is forbidden. -/
theorem smallestFree_min {used : Finset ℕ} {e : ℕ} (h : e < smallestFree used) :
    e ∈ used := by
  obtain ⟨d, hd, hdc⟩ := exists_free_le_card used
  exact (freeScan_spec used (used.card + 1) 0 ⟨d, hd, by omega, by omega⟩).2.2
    e (Nat.zero_le e) h

/-- The chosen color is at most the number of forbidden colors. -/
theorem smallestFree_le_card (used : Finset ℕ) :
    smallestFree used ≤ used.card := by
  by_contra h
  push_neg at h
  have hsub : Finset.range (used.card + 1) ⊆ used := by
    intro x hx
    rw [Finset.mem_range] at hx
    exact smallestFree_min (by omega)
  have hc := Finset.card_le_card hsub
  rw [Finset.card_range] at hc
  omega

/-! ## Properties of `usedColors` -/

/-- Membership in the forbidden-color set: some in-range neighbor carries the
color, and the color is not the unassigned sentinel. -/
theorem mem_usedColors {colors neighs : List ℕ} {c : ℕ} :
    c ∈ usedColors colors neighs ↔
      c ≠ USIZE_MAX ∧ ∃ nb, nb ∈ neighs ∧ colors[nb]? = some c := by
  unfold usedColors
  rw [List.mem_toFinset, List.mem_filterMap]
  constructor
  · rintro ⟨nb, hnb, hf⟩
    cases hv : colors[nb]? with
    | none => simp [hv] at hf
    | some v =>
      simp only [hv] at hf
      by_cases hm : v = USIZE_MAX
      · simp [hm] at hf
      · simp only [ne_eq, hm, not_false_eq_true, if_true, Option.some.injEq] at hf
        subst hf
        exact ⟨hm, nb, hnb, hv⟩
  · rintro ⟨hm, nb, hnb, hv⟩
    refine ⟨nb, hnb, ?_⟩
    simp [hv, hm]

/-! ## Small list helpers -/

/-- A nonempty default-`[]` lookup implies the index is in range. -/
theorem lt_length_of_mem_getD {l : List (List ℕ)} {a b : ℕ}
    (h : b ∈ l.getD a []) : a < l.length := by
  by_contra hc
  push_neg at hc
  rw [List.getD_eq_getElem?_getD, List.getElem?_eq_none hc] at h
  cases h

/-- Every in-range index appears, paired with its entry, in `enum`. -/
theorem pair_mem_enum {l : List (List ℕ)} {i : ℕ} (h : i < l.length) :
    (i, l[i]) ∈ l.enum := by
  rw [List.enum_eq_enumFrom]
  have h2 : (List.enumFrom 0 l)[i]? = some (0 + i, l[i]) := by
    rw [List.getElem?_enumFrom, List.getElem?_eq_getElem h]
    rfl
  have h3 := List.getElem?_mem h2
  simpa using h3

/-- An `enum` pair consists of an in-range index and the entry there. -/
theorem enum_pair_eq {p : ℕ × List ℕ} {l : List (List ℕ)} (h : p ∈ l.enum) :
    p.1 < l.length ∧ p.2 = l.getD p.1 [] := by
  rw [List.enum_eq_enumFrom] at h
  obtain ⟨h1, h2, h3⟩ := List.mem_enumFrom h
  refine ⟨by omega, ?_⟩
  rw [List.getD_eq_getElem l [] (by omega)]
  simpa using h3

/-! ## The accumulation steps of `distance2_adjacency` -/

/-- Successful `insertAt`: the index is in range and the result is the
pointwise update. -/
theorem insertAt_eq_some {sets : List (Finset ℕ)} {j v : ℕ}
    {sets' : List (Finset ℕ)} (h : insertAt sets j v = some sets') :
    j < sets.length ∧ sets' = sets.set j (insert v (sets.getD j ∅)) := by
  unfold insertAt at h
  cases hj : sets[j]? with
  | none => rw [hj] at h; cases h
  | some s =>
    rw [hj] at h
    cases h
    have hlt : j < sets.length := by
      by_contra hc
      push_neg at hc
      rw [List.getElem?_eq_none hc] at hj
      cases hj
    refine ⟨hlt, ?_⟩
    rw [List.getD_eq_getElem?_getD, hj]
    rfl

/-- `insertAt` succeeds on an in-range index. -/
theorem insertAt_total {sets : List (Finset ℕ)} {j : ℕ} (v : ℕ)
    (h : j < sets.length) : ∃ sets', insertAt sets j v = some sets' := by
  unfold insertAt
  rw [List.getElem?_eq_getElem h]
  exact ⟨_, rfl⟩

/-- Membership after a pointwise `insert` update. -/
theorem memAt_set_insert {sets : List (Finset ℕ)} {j v : ℕ}
    (hj : j < sets.length) (x y : ℕ) :
    memAt (sets.set j (insert v (sets.getD j ∅))) x y ↔
      memAt sets x y ∨ (x = j ∧ y = v) := by
  unfold memAt
  simp only [List.getD_eq_getElem?_getD]
  rw [List.getElem?_set]
  by_cases hx : j = x
  · subst hx
    rw [if_pos rfl, if_pos hj]
    simp [Finset.mem_insert]
    tauto
  · rw [if_neg hx]
    constructor
    · intro h; exact Or.inl h
    · rintro (h | ⟨hxj, _⟩)
      · exact h
      · exact absurd hxj.symm hx

/-- Successful `d2Pair`: both indices are in range, the length is preserved,
and exactly the two symmetric pairs are added. -/
theorem d2Pair_eq_some {sets : List (Finset ℕ)} {a b : ℕ}
    {sets' : List (Finset ℕ)} (h : d2Pair sets a b = some sets') :
    a < sets.length ∧ b < sets.length ∧ sets'.length = sets.length ∧
    ∀ x y, memAt sets' x y ↔
      memAt sets x y ∨ (x = a ∧ y = b) ∨ (x = b ∧ y = a) := by
  unfold d2Pair at h
  cases h1 : insertAt sets a b with
  | none => rw [h1] at h; cases h
  | some sets1 =>
    rw [h1] at h
    obtain ⟨ha, hset1⟩ := insertAt_eq_some h1
    obtain ⟨hb1, hset'⟩ := insertAt_eq_some h
    subst hset1
    have hlen1 : (sets.set a (insert b (sets.getD a ∅))).length = sets.length :=
      List.length_set sets a _
    have hb : b < sets.length := by rw [hlen1] at hb1; exact hb1
    subst hset'
    refine ⟨ha, hb, by simp [List.length_set], ?_⟩
    intro x y
    rw [memAt_set_insert hb1 x y, memAt_set_insert ha x y]
    tauto

/-- `d2Pair` succeeds on in-range indices. -/
theorem d2Pair_total {sets : List (Finset ℕ)} {a b : ℕ}
    (ha : a < sets.length) (hb : b < sets.length) :
    ∃ sets', d2Pair sets a b = some sets' := by
  unfold d2Pair
  obtain ⟨sets1, h1⟩ := insertAt_total b ha
  rw [h1]
  obtain ⟨_, hset1⟩ := insertAt_eq_some h1
  subst hset1
  exact insertAt_total a (by simpa [List.length_set] using hb)

/-- Successful `d2Inner`: the length is preserved and (when the guard fires)
exactly the two symmetric pairs `(i, k)` and `(k, i)` are added. -/
theorem d2Inner_eq_some {i k : ℕ} {sets sets' : List (Finset ℕ)}
    (h : d2Inner i sets k = some sets') :
    sets'.length = sets.length ∧ (k ≠ i → i < sets.length ∧ k < sets.length) ∧
    ∀ x y, memAt sets' x y ↔
      memAt sets x y ∨ (k ≠ i ∧ ((x = i ∧ y = k) ∨ (x = k ∧ y = i))) := by
  unfold d2Inner at h
  by_cases hk : k ≠ i
  · rw [if_pos hk] at h
    obtain ⟨hi, hkl, hlen, hmem⟩ := d2Pair_eq_some h
    refine ⟨hlen, fun _ => ⟨hi, hkl⟩, ?_⟩
    intro x y
    rw [hmem x y]
    tauto
  · rw [if_neg hk] at h
    cases h
    exact ⟨rfl, fun hc => absurd hc hk, by tauto⟩

/-- `codeDist2` is symmetric in its two DOF arguments. -/
theorem codeDist2_symm {adjacency : List (List ℕ)} {a b : ℕ}
    (h : codeDist2 adjacency a b) : codeDist2 adjacency b a := by
  obtain ⟨hne, hcase⟩ := h
  refine ⟨hne.symm, ?_⟩
  rcases hcase with h1 | h2 | ⟨j, hj1, hj2⟩ | ⟨j, hj1, hj2⟩
  · exact Or.inr (Or.inl h1)
  · exact Or.inl h2
  · exact Or.inr (Or.inr (Or.inr ⟨j, hj1, hj2⟩))
  · exact Or.inr (Or.inr (Or.inl ⟨j, hj1, hj2⟩))

/-- The initial accumulation state records nothing. -/
theorem not_memAt_replicate_empty {n a b : ℕ} :
    ¬ memAt (List.replicate n (∅ : Finset ℕ)) a b := by
  intro h
  unfold memAt at h
  rw [List.getD_eq_getElem?_getD, List.getElem?_replicate] at h
  by_cases ha : a < n
  · rw [if_pos ha] at h
    exact Finset.not_mem_empty b h
  · rw [if_neg ha] at h
    exact Finset.not_mem_empty b h

/-- `SetsMono` is reflexive. -/
theorem setsMono_refl (s : List (Finset ℕ)) : SetsMono s s :=
  ⟨rfl, fun _ _ h => h⟩

/-- `SetsMono` is transitive. -/
theorem setsMono_trans (s1 s2 s3 : List (Finset ℕ))
    (h1 : SetsMono s1 s2) (h2 : SetsMono s2 s3) : SetsMono s1 s3 :=
  ⟨h1.1.trans h2.1, fun a b h => h2.2 a b (h1.2 a b h)⟩

/-- Each `d2Inner` step only grows the accumulation state. -/
theorem d2Inner_mono {i k : ℕ} {sets sets' : List (Finset ℕ)}
    (h : d2Inner i sets k = some sets') : SetsMono sets sets' := by
  obtain ⟨hlen, _, hchar⟩ := d2Inner_eq_some h
  exact ⟨hlen.symm, fun a b hab => (hchar a b).mpr (Or.inl hab)⟩

/-- Destructured form of a successful `d2RowStep`. -/
theorem d2RowStep_eq_some {adjacency : List (List ℕ)} {i j : ℕ}
    {sets sets' : List (Finset ℕ)} (h : d2RowStep adjacency i sets j = some sets') :
    ∃ sets1 adjJ, (if i ≠ j then d2Pair sets i j else some sets) = some sets1 ∧
      adjacency[j]? = some adjJ ∧ adjJ.foldlM (d2Inner i) sets1 = some sets' := by
  unfold d2RowStep at h
  cases h1 : (if i ≠ j then d2Pair sets i j else some sets) with
  | none => rw [h1] at h; cases h
  | some sets1 =>
    rw [h1] at h
    cases h2 : adjacency[j]? with
    | none => rw [h2] at h; cases h
    | some adjJ =>
      rw [h2] at h
      exact ⟨sets1, adjJ, rfl, rfl, h⟩

/-- Each `d2RowStep` only grows the accumulation state. -/
theorem d2RowStep_mono {adjacency : List (List ℕ)} {i j : ℕ}
    {sets sets' : List (Finset ℕ)} (h : d2RowStep adjacency i sets j = some sets') :
    SetsMono sets sets' := by
  obtain ⟨sets1, adjJ, h1, _, h3⟩ := d2RowStep_eq_some h
  have hm1 : SetsMono sets sets1 := by
    by_cases hij : i ≠ j
    · rw [if_pos hij] at h1
      obtain ⟨ha, hb, hlen, hchar⟩ := d2Pair_eq_some h1
      exact ⟨hlen.symm, fun a b hab => (hchar a b).mpr (Or.inl hab)⟩
    · rw [if_neg hij] at h1
      cases h1
      exact setsMono_refl sets
  exact setsMono_trans _ _ _ hm1
    (foldlM_option_mono SetsMono (d2Inner i) setsMono_refl setsMono_trans
      (fun b k b' hb => d2Inner_mono hb) adjJ sets1 sets' h3)

/-- Each row of the accumulation only grows the state. -/
theorem d2Row_mono {adjacency : List (List ℕ)} {i : ℕ} {neighs : List ℕ}
    {sets sets' : List (Finset ℕ)} (h : d2Row adjacency i sets neighs = some sets') :
    SetsMono sets sets' :=
  foldlM_option_mono SetsMono (d2RowStep adjacency i) setsMono_refl setsMono_trans
    (fun b j b' hb => d2RowStep_mono hb) neighs sets sets' h

/-- A successful `d2Pair` whose added pair is justified preserves the
soundness invariant. -/
theorem d2Pair_inv {adjacency : List (List ℕ)} {a b : ℕ}
    {sets sets' : List (Finset ℕ)} (h : d2Pair sets a b = some sets')
    (hcd : codeDist2 adjacency a b) (hinv : D2Inv adjacency sets) :
    D2Inv adjacency sets' := by
  obtain ⟨hlen, hmem⟩ := hinv
  obtain ⟨ha, hb, hlen', hchar⟩ := d2Pair_eq_some h
  refine ⟨by rw [hlen']; exact hlen, ?_⟩
  intro x y hxy
  rw [hchar x y] at hxy
  rcases hxy with hold | ⟨hx, hy⟩ | ⟨hx, hy⟩
  · obtain ⟨h1, h2, h3, h4, h5⟩ := hmem x y hold
    exact ⟨h1, h2, h3, (hchar y x).mpr (Or.inl h4), h5⟩
  · rw [hx, hy]
    exact ⟨by rw [← hlen]; exact ha, by rw [← hlen]; exact hb, hcd.1,
      (hchar b a).mpr (Or.inr (Or.inr ⟨rfl, rfl⟩)), hcd⟩
  · rw [hx, hy]
    exact ⟨by rw [← hlen]; exact hb, by rw [← hlen]; exact ha, hcd.1.symm,
      (hchar a b).mpr (Or.inr (Or.inl ⟨rfl, rfl⟩)), codeDist2_symm hcd⟩

/-- A `d2Inner` step taken while visiting neighbor `j` of DOF `i` preserves
the soundness invariant. -/
theorem d2Inner_inv {adjacency : List (List ℕ)} {i j k : ℕ}
    (hij : j ∈ adjacency.getD i []) (hkj : k ∈ adjacency.getD j [])
    {sets sets' : List (Finset ℕ)} (h : d2Inner i sets k = some sets')
    (hinv : D2Inv adjacency sets) : D2Inv adjacency sets' := by
  unfold d2Inner at h
  by_cases hk : k ≠ i
  · rw [if_pos hk] at h
    exact d2Pair_inv h
      ⟨fun he => hk he.symm, Or.inr (Or.inr (Or.inl ⟨j, hij, hkj⟩))⟩ hinv
  · rw [if_neg hk] at h
    cases h
    exact hinv

/-- A `d2RowStep` taken while visiting neighbor `j` of DOF `i` preserves the
soundness invariant. -/
theorem d2RowStep_inv {adjacency : List (List ℕ)} {i j : ℕ}
    (hij : j ∈ adjacency.getD i [])
    {sets sets' : List (Finset ℕ)} (h : d2RowStep adjacency i sets j = some sets')
    (hinv : D2Inv adjacency sets) : D2Inv adjacency sets' := by
  obtain ⟨sets1, adjJ, h1, h2, h3⟩ := d2RowStep_eq_some h
  have hinv1 : D2Inv adjacency sets1 := by
    by_cases hij' : i ≠ j
    · rw [if_pos hij'] at h1
      exact d2Pair_inv h1 ⟨hij', Or.inl hij⟩ hinv
    · rw [if_neg hij'] at h1
      cases h1
      exact hinv
  have hadjJ : adjJ = adjacency.getD j [] := by
    rw [List.getD_eq_getElem?_getD, h2]
    rfl
  exact foldlM_option_inv (D2Inv adjacency) (d2Inner i) adjJ
    (fun b k b' hkmem hb hPb =>
      d2Inner_inv hij (by rw [← hadjJ]; exact hkmem) hb hPb)
    sets1 sets' h3 hinv1

/-- Processing one row preserves the soundness invariant, provided the row's
entries are really the 1-hop neighbors of the row's DOF. -/
theorem d2Row_inv {adjacency : List (List ℕ)} {i : ℕ} {neighs : List ℕ}
    (hrow : ∀ j, j ∈ neighs → j ∈ adjacency.getD i [])
    {sets sets' : List (Finset ℕ)} (h : d2Row adjacency i sets neighs = some sets')
    (hinv : D2Inv adjacency sets) : D2Inv adjacency sets' :=
  foldlM_option_inv (D2Inv adjacency) (d2RowStep adjacency i) neighs
    (fun b j b' hj hb hPb => d2RowStep_inv (hrow j hj) hb hPb)
    sets sets' h hinv

/-- Soundness of the accumulation phase: every recorded pair is in range,
off-diagonal, symmetric, and justified. -/
theorem d2Sets_sound {adjacency : List (List ℕ)} {sets : List (Finset ℕ)}
    (h : d2Sets adjacency = some sets) : D2Inv adjacency sets := by
  unfold d2Sets at h
  refine foldlM_option_inv (D2Inv adjacency) _ adjacency.enum ?_ _ sets h
    ⟨List.length_replicate _ _, fun a b hab => absurd hab not_memAt_replicate_empty⟩
  intro b p b' hp hb hPb
  obtain ⟨hp1, hp2⟩ := enum_pair_eq hp
  exact d2Row_inv (fun j hj => by rw [← hp2]; exact hj) hb hPb

/-- After a `d2Inner` step for the 2-hop neighbor `k`, the pair `(i, k)` is
recorded (when the guard fired). -/
theorem d2Inner_mem {i k : ℕ} {sets sets' : List (Finset ℕ)}
    (h : d2Inner i sets k = some sets') (hk : k ≠ i) : memAt sets' i k := by
  obtain ⟨_, _, hchar⟩ := d2Inner_eq_some h
  exact (hchar i k).mpr (Or.inr ⟨hk, Or.inl ⟨rfl, rfl⟩⟩)

/-- After a `d2RowStep` for the 1-hop neighbor `j`, the direct pair and all
2-hop pairs through `j` are recorded. -/
theorem d2RowStep_mem {adjacency : List (List ℕ)} {i j : ℕ}
    {sets sets' : List (Finset ℕ)} (h : d2RowStep adjacency i sets j = some sets') :
    (i ≠ j → memAt sets' i j) ∧
    ∀ k, k ∈ adjacency.getD j [] → k ≠ i → memAt sets' i k := by
  obtain ⟨sets1, adjJ, h1, h2, h3⟩ := d2RowStep_eq_some h
  have hadjJ : adjJ = adjacency.getD j [] := by
    rw [List.getD_eq_getElem?_getD, h2]
    rfl
  constructor
  · intro hij
    have hm1 : memAt sets1 i j := by
      rw [if_pos hij] at h1
      obtain ⟨_, _, _, hchar⟩ := d2Pair_eq_some h1
      exact (hchar i j).mpr (Or.inr (Or.inl ⟨rfl, rfl⟩))
    exact (foldlM_option_mono SetsMono (d2Inner i) setsMono_refl setsMono_trans
      (fun b k b' hb => d2Inner_mono hb) adjJ sets1 sets' h3).2 i j hm1
  · intro k hk hki
    refine foldlM_option_mem SetsMono (fun k final => k ≠ i → memAt final i k)
      (d2Inner i) setsMono_refl setsMono_trans
      (fun b x b' hb => d2Inner_mono hb)
      (fun x b b' hq hmono hxi => hmono.2 i x (hq hxi))
      adjJ ?_ sets1 sets' h3 k (by rw [hadjJ]; exact hk) hki
    intro b x b' hx hb hxi
    exact d2Inner_mem hb hxi

/-- After processing a whole row, every contribution of that row is
recorded. -/
theorem d2Row_mem {adjacency : List (List ℕ)} {i : ℕ} {neighs : List ℕ}
    {sets sets' : List (Finset ℕ)} (h : d2Row adjacency i sets neighs = some sets') :
    ∀ j, j ∈ neighs → (i ≠ j → memAt sets' i j) ∧
      ∀ k, k ∈ adjacency.getD j [] → k ≠ i → memAt sets' i k := by
  intro j hj
  refine foldlM_option_mem SetsMono
    (fun j final => (i ≠ j → memAt final i j) ∧
      ∀ k, k ∈ adjacency.getD j [] → k ≠ i → memAt final i k)
    (d2RowStep adjacency i) setsMono_refl setsMono_trans
    (fun b x b' hb => d2RowStep_mono hb)
    (fun x b b' hq hmono =>
      ⟨fun hix => hmono.2 i x (hq.1 hix),
       fun k hk hki => hmono.2 i k (hq.2 k hk hki)⟩)
    neighs (fun b x b' hx hb => d2RowStep_mem hb) sets sets' h j hj

/-- Completeness of the accumulation phase: every justified pair is
recorded. -/
theorem d2Sets_complete {adjacency : List (List ℕ)} {sets : List (Finset ℕ)}
    (h : d2Sets adjacency = some sets) :
    ∀ a b, codeDist2 adjacency a b → memAt sets a b := by
  have hsound := d2Sets_sound h
  unfold d2Sets at h
  have hrow : ∀ p, p ∈ adjacency.enum →
      ∀ j, j ∈ p.2 → (p.1 ≠ j → memAt sets p.1 j) ∧
        ∀ k, k ∈ adjacency.getD j [] → k ≠ p.1 → memAt sets p.1 k := by
    intro p hp
    refine foldlM_option_mem SetsMono
      (fun p final => ∀ j, j ∈ p.2 → (p.1 ≠ j → memAt final p.1 j) ∧
        ∀ k, k ∈ adjacency.getD j [] → k ≠ p.1 → memAt final p.1 k)
      (fun sets p => d2Row adjacency p.1 sets p.2) setsMono_refl setsMono_trans
      (fun b x b' hb => d2Row_mono hb) ?_ adjacency.enum ?_ _ sets h p hp
    · intro x b b' hq hmono j hj
      exact ⟨fun hne => hmono.2 x.1 j ((hq j hj).1 hne),
        fun k hk hkne => hmono.2 x.1 k ((hq j hj).2 k hk hkne)⟩
    · intro b x b' hx hb
      exact d2Row_mem hb
  intro a b hab
  obtain ⟨hne, hcase⟩ := hab
  rcases hcase with h1 | h2 | ⟨j, hj1, hj2⟩ | ⟨j, hj1, hj2⟩
  · have ha : a < adjacency.length := lt_length_of_mem_getD h1
    have := hrow (a, adjacency[a]) (pair_mem_enum ha) b
      (by rw [List.getD_eq_getElem adjacency [] ha] at h1; exact h1)
    exact this.1 hne
  · have hb : b < adjacency.length := lt_length_of_mem_getD h2
    have := (hrow (b, adjacency[b]) (pair_mem_enum hb) a
      (by rw [List.getD_eq_getElem adjacency [] hb] at h2; exact h2)).1 hne.symm
    exact (hsound.2 b a this).2.2.2.1
  · have ha : a < adjacency.length := lt_length_of_mem_getD hj1
    have := (hrow (a, adjacency[a]) (pair_mem_enum ha) j
      (by rw [List.getD_eq_getElem adjacency [] ha] at hj1; exact hj1)).2 b hj2 hne.symm
    exact this
  · have hb : b < adjacency.length := lt_length_of_mem_getD hj1
    have := (hrow (b, adjacency[b]) (pair_mem_enum hb) j
      (by rw [List.getD_eq_getElem adjacency [] hb] at hj1; exact hj1)).2 a hj2 hne
    exact (hsound.2 b a this).2.2.2.1

/-- Full characterization of the accumulation phase: the recorded pairs are
exactly the pairs joined by a directed path of length at most two, in either
direction, between distinct DOFs. -/
theorem d2Sets_char {adjacency : List (List ℕ)} {sets : List (Finset ℕ)}
    (h : d2Sets adjacency = some sets) :
    sets.length = adjacency.length ∧
    ∀ a b, memAt sets a b ↔ codeDist2 adjacency a b := by
  have hsound := d2Sets_sound h
  exact ⟨hsound.1, fun a b =>
    ⟨fun hm => (hsound.2 a b hm).2.2.2.2, fun hc => d2Sets_complete h a b hc⟩⟩

/-! ## The emitted `distance2_adjacency` structure -/

/-- Destructured form of a successful `distance2_adjacency`. -/
theorem distance2_adjacency_eq_some {adjacency adj2 : List (List ℕ)}
    (h : distance2_adjacency adjacency = some adj2) :
    ∃ sets, d2Sets adjacency = some sets ∧ adj2 = sets.map sortFinset := by
  unfold distance2_adjacency distance2_adjacencyWith at h
  cases hs : d2Sets adjacency with
  | none => rw [hs] at h; cases h
  | some sets =>
    rw [hs] at h
    cases h
    exact ⟨sets, rfl, rfl⟩

/-- Membership in an emitted row is membership in the accumulated set. -/
theorem mem_map_sortFinset_getD {sets : List (Finset ℕ)} {i b : ℕ} :
    b ∈ (sets.map sortFinset).getD i [] ↔ memAt sets i b := by
  by_cases hi : i < sets.length
  · rw [List.getD_eq_getElem (sets.map sortFinset) []
      (by rw [List.length_map]; exact hi)]
    rw [List.getElem_map]
    unfold memAt
    rw [List.getD_eq_getElem sets ∅ hi]
    exact mem_sortFinset
  · have hge : sets.length ≤ i := not_lt.mp hi
    have h1 : (sets.map sortFinset).getD i [] = [] := by
      rw [List.getD_eq_getElem?_getD,
        List.getElem?_eq_none (by rw [List.length_map]; exact hge)]
      rfl
    rw [h1]
    unfold memAt
    rw [List.getD_eq_getElem?_getD, List.getElem?_eq_none hge]
    constructor
    · intro hb; cases hb
    · intro hb; exact absurd hb (Finset.not_mem_empty b)

/-- Structural facts about the emitted distance-2 adjacency: its length, the
exact characterization of its rows, range bounds, symmetry, absence of
self-loops, strict sortedness and freedom from duplicates. -/
theorem distance2_adjacency_props {adjacency adj2 : List (List ℕ)}
    (h : distance2_adjacency adjacency = some adj2) :
    adj2.length = adjacency.length ∧
    (∀ i b, b ∈ adj2.getD i [] ↔ codeDist2 adjacency i b) ∧
    (∀ i b, b ∈ adj2.getD i [] → i < adj2.length ∧ b < adj2.length) ∧
    (∀ i j, j ∈ adj2.getD i [] → i ∈ adj2.getD j []) ∧
    (∀ i, i ∉ adj2.getD i []) ∧
    (∀ i, List.Sorted (· < ·) (adj2.getD i []) ∧ (adj2.getD i []).Nodup) := by
  obtain ⟨sets, hs, hmap⟩ := distance2_adjacency_eq_some h
  obtain ⟨hlen, hchar⟩ := d2Sets_char hs
  have hsound := d2Sets_sound hs
  subst hmap
  have hmem : ∀ i b, b ∈ (sets.map sortFinset).getD i [] ↔ memAt sets i b :=
    fun i b => mem_map_sortFinset_getD
  have hlen2 : (sets.map sortFinset).length = adjacency.length := by
    rw [List.length_map]; exact hlen
  refine ⟨hlen2, ?_, ?_, ?_, ?_, ?_⟩
  · intro i b
    rw [hmem i b]
    exact hchar i b
  · intro i b hb
    obtain ⟨h1, h2, _, _, _⟩ := hsound.2 i b ((hmem i b).mp hb)
    rw [hlen2]
    exact ⟨h1, h2⟩
  · intro i j hj
    exact (hmem j i).mpr (hsound.2 i j ((hmem i j).mp hj)).2.2.2.1
  · intro i hi
    exact (hsound.2 i i ((hmem i i).mp hi)).2.2.1 rfl
  · intro i
    by_cases hi : i < sets.length
    · rw [List.getD_eq_getElem (sets.map sortFinset) []
        (by rw [List.length_map]; exact hi), List.getElem_map]
      exact ⟨sortFinset_sorted_lt _, sortFinset_nodup _⟩
    · have h1 : (sets.map sortFinset).getD i [] = [] := by
        rw [List.getD_eq_getElem?_getD,
          List.getElem?_eq_none (by rw [List.length_map]; exact not_lt.mp hi)]
        rfl
      rw [h1]
      exact ⟨List.sorted_nil, List.nodup_nil⟩

/-- Any emission function meeting its contract yields the canonical
`distance2_adjacency`. -/
theorem distance2_adjacencyWith_emitSpec {emit : Finset ℕ → List ℕ}
    (h : EmitSpec emit) (adjacency : List (List ℕ)) :
    distance2_adjacencyWith emit adjacency = distance2_adjacency adjacency := by
  unfold distance2_adjacency distance2_adjacencyWith
  cases d2Sets adjacency with
  | none => rfl
  | some sets =>
    show some (sets.map emit) = some (sets.map sortFinset)
    rw [List.map_congr_left (fun s _ => emitSpec_eq_sortFinset h s)]

/-- Any emission function meeting its contract yields the canonical entry
point result. -/
theorem distance2_color_and_seedsWith_emitSpec {emit : Finset ℕ → List ℕ}
    (h : EmitSpec emit) (row_ptr col_idx : List Int) (n_dofs : ℕ) :
    distance2_color_and_seedsWith emit row_ptr col_idx n_dofs =
      distance2_color_and_seeds row_ptr col_idx n_dofs := by
  unfold distance2_color_and_seeds distance2_color_and_seedsWith
  simp only [distance2_adjacencyWith_emitSpec h]
  rfl

/-! ## The greedy coloring invariant -/

/-- A duplicate-free list of naturals below `n` avoiding a value below `n`
has at most `n - 1` entries. -/
theorem length_le_of_nodup_bound {l : List ℕ} {n t : ℕ} (hnod : l.Nodup)
    (hb : ∀ b, b ∈ l → b < n) (hts : t ∉ l) (htn : t < n) :
    l.length ≤ n - 1 := by
  have hsub : l.toFinset ⊆ (Finset.range n).erase t := by
    intro x hx
    rw [List.mem_toFinset] at hx
    rw [Finset.mem_erase, Finset.mem_range]
    exact ⟨fun he => hts (he ▸ hx), hb x hx⟩
  have hc := Finset.card_le_card hsub
  rw [List.toFinset_card_of_nodup hnod,
    Finset.card_erase_of_mem (Finset.mem_range.mpr htn), Finset.card_range] at hc
  exact hc

/-- One step of the coloring loop preserves the greedy invariant. -/
theorem greedyStep_inv {g : List (List ℕ)}
    (hbnd : ∀ i b, b ∈ g.getD i [] → b < g.length)
    (hsym : ∀ i j, j ∈ g.getD i [] → i ∈ g.getD j [])
    (hirr : ∀ i, i ∉ g.getD i [])
    (hnod : ∀ i, (g.getD i []).Nodup)
    (hn : g.length ≤ USIZE_MAX)
    {t : ℕ} {colors : List ℕ} (ht : t < g.length)
    (hinv : GreedyInv g t colors) :
    GreedyInv g (t + 1) (greedyStep colors (t, g.getD t [])) := by
  obtain ⟨hlen, hunass, hass⟩ := hinv
  set nbrs := g.getD t [] with hnbrs
  set used := usedColors colors nbrs with hused
  set cstar := smallestFree used with hcstar
  have htlen : t < colors.length := by rw [hlen]; exact ht
  have hstep : greedyStep colors (t, nbrs) = colors.set t cstar := rfl
  rw [hstep]
  have hget : ∀ k, (colors.set t cstar)[k]? =
      if k = t then some cstar else colors[k]? := by
    intro k
    rw [List.getElem?_set]
    by_cases hk : t = k
    · subst hk
      rw [if_pos rfl, if_pos htlen, if_pos rfl]
    · rw [if_neg hk, if_neg (fun h => hk h.symm)]
  have hcstar_ne : cstar ≠ USIZE_MAX := by
    have h1 : cstar ≤ used.card := smallestFree_le_card used
    have h2 : used.card ≤ nbrs.length :=
      le_trans (List.toFinset_card_le _) (List.length_filterMap_le _ _)
    have h3 : nbrs.length ≤ g.length - 1 :=
      length_le_of_nodup_bound (hnod t) (fun b hb => hbnd t b hb) (hirr t) ht
    have hM : 0 < USIZE_MAX := by norm_num [USIZE_MAX]
    omega
  have hmemused : ∀ c, c ∈ used ↔
      c ≠ USIZE_MAX ∧ ∃ nb, nb ∈ nbrs ∧ colors[nb]? = some c :=
    fun c => mem_usedColors
  refine ⟨?_, ?_, ?_⟩
  · rw [List.length_set]
    exact hlen
  · intro k hk
    rw [hget k, if_neg (by omega)]
    exact hunass k (by omega)
  · intro k c hk hkc
    rw [hget k] at hkc
    by_cases hkt : k = t
    · rw [if_pos hkt] at hkc
      cases hkc
      subst hkt
      refine ⟨hcstar_ne, ?_, ?_⟩
      · intro j hj hjt1
        rw [hget j]
        have hjt : j ≠ k := fun he => hirr k (he ▸ hj)
        rw [if_neg hjt]
        intro heq
        have : cstar ∈ used := (hmemused cstar).mpr ⟨hcstar_ne, j, hj, heq⟩
        exact smallestFree_not_mem used this
      · intro c' hc'
        have hc'used : c' ∈ used := smallestFree_min hc'
        obtain ⟨hc'ne, nb, hnb, hnbc⟩ := (hmemused c').mp hc'used
        have hnbt : nb < k := by
          by_contra hge
          push_neg at hge
          have hu := hunass nb hge
          rw [hu] at hnbc
          by_cases hlt : nb < g.length
          · rw [if_pos hlt] at hnbc
            cases hnbc
            exact hc'ne rfl
          · rw [if_neg hlt] at hnbc
            cases hnbc
        refine ⟨nb, by omega, ?_⟩
        rw [hget nb, if_neg (by omega)]
        exact hnbc
    · rw [if_neg hkt] at hkc
      have hklt : k < t := by omega
      obtain ⟨hcne, hprop, hcontig⟩ := hass k c hklt hkc
      refine ⟨hcne, ?_, ?_⟩
      · intro j hj hjt1
        rw [hget j]
        by_cases hjt : j = t
        · rw [if_pos hjt]
          intro heq
          cases heq
          have hk2 : k ∈ nbrs := by
            rw [hnbrs]
            exact hsym k t (hjt ▸ hj)
          have : cstar ∈ used := (hmemused cstar).mpr ⟨hcstar_ne, k, hk2, hkc⟩
          exact smallestFree_not_mem used this
        · rw [if_neg hjt]
          exact hprop j hj (by omega)
      · intro c' hc'
        obtain ⟨m, hm, hmc⟩ := hcontig c' hc'
        refine ⟨m, by omega, ?_⟩
        rw [hget m, if_neg (by omega)]
        exact hmc

/-- The coloring loop, run from position `t` over the remaining rows,
carries the greedy invariant to the end. -/
theorem greedy_fold_inv {g : List (List ℕ)}
    (hbnd : ∀ i b, b ∈ g.getD i [] → b < g.length)
    (hsym : ∀ i j, j ∈ g.getD i [] → i ∈ g.getD j [])
    (hirr : ∀ i, i ∉ g.getD i [])
    (hnod : ∀ i, (g.getD i []).Nodup)
    (hn : g.length ≤ USIZE_MAX) :
    ∀ (rest : List (List ℕ)) (t : ℕ) (colors : List ℕ),
      g.drop t = rest → GreedyInv g t colors →
      GreedyInv g (t + rest.length)
        ((List.enumFrom t rest).foldl greedyStep colors) := by
  intro rest
  induction rest with
  | nil =>
    intro t colors _ hinv
    simpa using hinv
  | cons r rest' ih =>
    intro t colors hdrop hinv
    have hlendrop := congrArg List.length hdrop
    rw [List.length_drop] at hlendrop
    have ht : t < g.length := by
      rw [List.length_cons] at hlendrop
      omega
    have hr : r = g.getD t [] := by
      have h0 : (List.drop t g)[0]? = some r := by
        rw [hdrop, List.getElem?_cons_zero]
      rw [List.getElem?_drop] at h0
      rw [List.getD_eq_getElem?_getD]
      have : t + 0 = t := rfl
      rw [this] at h0
      rw [h0]
      rfl
    have hdrop' : g.drop (t + 1) = rest' := by
      rw [← List.tail_drop, hdrop]
      rfl
    rw [List.enumFrom_cons, List.foldl_cons]
    have hstep := greedyStep_inv hbnd hsym hirr hnod hn ht hinv
    rw [← hr] at hstep
    have hres := ih (t + 1) (greedyStep colors (t, r)) hdrop' hstep
    have heq : t + (r :: rest').length = (t + 1) + rest'.length := by
      rw [List.length_cons]
      omega
    rw [heq]
    exact hres

/-- The greedy invariant holds of the final coloring, at `t = n`. -/
theorem greedy_color_inv {g : List (List ℕ)}
    (hbnd : ∀ i b, b ∈ g.getD i [] → b < g.length)
    (hsym : ∀ i j, j ∈ g.getD i [] → i ∈ g.getD j [])
    (hirr : ∀ i, i ∉ g.getD i [])
    (hnod : ∀ i, (g.getD i []).Nodup)
    (hn : g.length ≤ USIZE_MAX) :
    GreedyInv g g.length (greedy_color g) := by
  unfold greedy_color
  rw [List.enum_eq_enumFrom]
  have h0 : GreedyInv g 0 (List.replicate g.length USIZE_MAX) := by
    refine ⟨List.length_replicate _ _, ?_, ?_⟩
    · intro k _
      rw [List.getElem?_replicate]
    · intro k c hk
      omega
  have hres := greedy_fold_inv hbnd hsym hirr hnod hn g 0
    (List.replicate g.length USIZE_MAX) (List.drop_zero g) h0
  simpa using hres

/-! ## The seed vectors -/

/-- The seed-filling fold preserves the vector length. -/
theorem seedFold_length (color : ℕ) :
    ∀ (ps : List (ℕ × ℕ)) (seed : List ℚ),
      (ps.foldl (seedStep color) seed).length = seed.length := by
  intro ps
  induction ps with
  | nil => intro seed; rfl
  | cons p ps ih =>
    intro seed
    rw [List.foldl_cons, ih]
    unfold seedStep
    by_cases hc : p.2 = color
    · rw [if_pos hc, List.length_set]
    · rw [if_neg hc]

/-- Entrywise value of the seed-filling fold: position `idx` is `1` exactly
when the coloring entry scanned at that position equals the vector's color,
and is otherwise left as it was. -/
theorem seedFold_getElem (color : ℕ) :
    ∀ (cs : List ℕ) (k : ℕ) (seed : List ℚ) (idx : ℕ),
      ((List.enumFrom k cs).foldl (seedStep color) seed)[idx]? =
        if k ≤ idx ∧ cs[idx - k]? = some color then
          (if idx < seed.length then some (1 : ℚ) else none)
        else seed[idx]? := by
  intro cs
  induction cs with
  | nil =>
    intro k seed idx
    simp
  | cons c cs ih =>
    intro k seed idx
    rw [List.enumFrom_cons, List.foldl_cons, ih (k + 1) _ idx]
    have hLlen : (seedStep color seed (k, c)).length = seed.length := by
      unfold seedStep
      by_cases hc : c = color
      · rw [if_pos hc, List.length_set]
      · rw [if_neg hc]
    have hLget : ∀ m, (seedStep color seed (k, c))[m]? =
        if m = k ∧ c = color then (if k < seed.length then some (1 : ℚ) else none)
        else seed[m]? := by
      intro m
      unfold seedStep
      by_cases hc : c = color
      · rw [if_pos hc, List.getElem?_set]
        by_cases hm : k = m
        · subst hm
          simp [hc]
        · simp [hm, show ¬ (m = k ∧ c = color) from fun hh => hm hh.1.symm]
      · rw [if_neg hc]
        simp [show ¬ (m = k ∧ c = color) from fun hh => hc hh.2]
    rw [hLlen, hLget idx]
    by_cases h1 : k + 1 ≤ idx
    · have hsucc : (c :: cs)[idx - k]? = cs[idx - (k + 1)]? := by
        have he : idx - k = (idx - (k + 1)) + 1 := by omega
        rw [he, List.getElem?_cons_succ]
      by_cases h2 : cs[idx - (k + 1)]? = some color
      · simp [hsucc, h1, h2, show k ≤ idx from by omega]
      · simp [hsucc, h2, show idx ≠ k from by omega]
    · by_cases hik : idx = k
      · subst hik
        by_cases hc : c = color
        · simp [h1, hc, Nat.sub_self]
        · simp [h1, hc, Nat.sub_self]
      · simp [h1, hik, show ¬ k ≤ idx from by omega]

/-- The maximum of a nonempty list of naturals: it exists, belongs to the
list, and dominates it. -/
theorem max?_spec {l : List ℕ} (h : l ≠ []) :
    ∃ m, l.max? = some m ∧ m ∈ l ∧ ∀ b, b ∈ l → b ≤ m := by
  cases hm : l.max? with
  | none =>
    cases l with
    | nil => exact absurd rfl h
    | cons x xs => rw [List.max?_cons] at hm; cases hm
  | some m =>
    rw [List.max?_eq_some_iff (fun a => le_refl a) (fun a b => max_choice a b)
      (fun a b c => max_le_iff)] at hm
    exact ⟨m, rfl, hm.1, hm.2⟩

/-- Shape and entrywise characterization of `seeds_from_colors` on a
nonempty coloring: one vector per color in `0 ..= max_color`, each of the
coloring's length, holding `1` exactly at the DOFs of its color and `0`
elsewhere. -/
theorem seeds_from_colors_char {colors : List ℕ} (hne : colors ≠ []) :
    (seeds_from_colors colors).length = colors.max?.getD 0 + 1 ∧
    ∀ c s, (seeds_from_colors colors)[c]? = some s →
      s.length = colors.length ∧
      ∀ idx, idx < colors.length →
        s[idx]? = some (if colors[idx]? = some c then (1 : ℚ) else 0) := by
  unfold seeds_from_colors
  rw [if_neg hne]
  constructor
  · rw [List.length_map, List.length_range]
  · intro c s hs
    rw [List.getElem?_map] at hs
    cases hr : (List.range (colors.max?.getD 0 + 1))[c]? with
    | none => rw [hr] at hs; cases hs
    | some c' =>
      rw [hr] at hs
      have hcc : c' = c := by
        have hlt : c < colors.max?.getD 0 + 1 := by
          by_contra hge
          push_neg at hge
          rw [List.getElem?_eq_none (by rw [List.length_range]; exact hge)] at hr
          cases hr
        rw [List.getElem?_range hlt] at hr
        cases hr
        rfl
      subst hcc
      cases hs
      constructor
      · rw [List.enum_eq_enumFrom, seedFold_length, List.length_replicate]
      · intro idx hidx
        rw [List.enum_eq_enumFrom, seedFold_getElem]
        rw [List.length_replicate, Nat.sub_zero]
        by_cases hc : colors[idx]? = some c'
        · simp [hc, hidx]
        · simp [hc, hidx, List.getElem?_replicate]
          split <;> rfl

/-! ## The entry point pipeline -/

/-- A successful `buildAdjacency` yields one list per DOF. -/
theorem buildAdjacency_length {row_ptr col_idx : List Int} {n_dofs : ℕ}
    {adjacency : List (List ℕ)}
    (h : buildAdjacency row_ptr col_idx n_dofs = some adjacency) :
    adjacency.length = n_dofs := by
  have hh := (mapM_option_eq_some _ _ _ h).1
  rw [List.length_range] at hh
  exact hh

/-- Destructured form of a successful entry-point run: validation passed and
the outputs are the greedy coloring of the built distance-2 adjacency and
its seeds. -/
theorem entry_ok_destruct {row_ptr col_idx : List Int} {n_dofs : ℕ}
    {colors : List ℕ} {seeds : List (List ℚ)}
    (h : distance2_color_and_seeds row_ptr col_idx n_dofs =
      Except.ok (colors, seeds)) :
    row_ptr.length % 2 ^ 64 = (n_dofs + 1) % 2 ^ 64 ∧
    ∃ adjacency adj2, buildAdjacency row_ptr col_idx n_dofs = some adjacency ∧
      distance2_adjacency adjacency = some adj2 ∧
      colors = greedy_color adj2 ∧
      seeds = seeds_from_colors (greedy_color adj2) := by
  unfold distance2_color_and_seeds distance2_color_and_seedsWith at h
  by_cases hlen : row_ptr.length % 2 ^ 64 ≠ (n_dofs + 1) % 2 ^ 64
  · rw [if_pos hlen] at h
    cases h
  · rw [if_neg hlen] at h
    push_neg at hlen
    refine ⟨hlen, ?_⟩
    split at h
    · cases h
    · rename_i adjacency hb
      split at h
      · cases h
      · rename_i adj2 hd
        simp only [Except.ok.injEq, Prod.mk.injEq] at h
        exact ⟨adjacency, adj2, hb, hd, h.1.symm, h.2.symm⟩

/-- Composing successful stages yields the entry-point result. -/
theorem entry_eq_of_pieces {row_ptr col_idx : List Int} {n_dofs : ℕ}
    {adjacency adj2 : List (List ℕ)}
    (hlen : row_ptr.length = n_dofs + 1)
    (hadj : buildAdjacency row_ptr col_idx n_dofs = some adjacency)
    (hadj2 : distance2_adjacency adjacency = some adj2) :
    distance2_color_and_seeds row_ptr col_idx n_dofs =
      Except.ok (greedy_color adj2, seeds_from_colors (greedy_color adj2)) := by
  have h1 : distance2_color_and_seeds row_ptr col_idx n_dofs =
      match distance2_adjacency adjacency with
      | none => Except.error CsError.outOfBounds
      | some adjacency2 =>
        Except.ok (greedy_color adjacency2, seeds_from_colors (greedy_color adjacency2)) := by
    unfold distance2_color_and_seeds distance2_color_and_seedsWith
    rw [if_neg (show ¬ row_ptr.length % 2 ^ 64 ≠ (n_dofs + 1) % 2 ^ 64 from
      fun hne => hne (by rw [hlen])), hadj]
    rfl
  rw [h1, hadj2]

/-- The greedy coloring has one entry per DOF. -/
theorem greedy_color_length (g : List (List ℕ)) :
    (greedy_color g).length = g.length := by
  unfold greedy_color
  have hfold : ∀ (ps : List (ℕ × List ℕ)) (colors : List ℕ),
      (ps.foldl greedyStep colors).length = colors.length := by
    intro ps
    induction ps with
    | nil => intro colors; rfl
    | cons p ps ih =>
      intro colors
      rw [List.foldl_cons, ih]
      unfold greedyStep
      rw [List.length_set]
  rw [hfold, List.length_replicate]

/-- A fold whose every step leaves the state unchanged succeeds and returns
the initial state. -/
theorem foldlM_option_id {α β : Type} (f : β → α → Option β) :
    ∀ (l : List α), (∀ a, a ∈ l → ∀ b, f b a = some b) →
      ∀ b, l.foldlM f b = some b := by
  intro l
  induction l with
  | nil => intro _ b; rfl
  | cons a l ih =>
    intro h b
    rw [List.foldlM_cons]
    simp only [bind, Option.bind_eq_some]
    exact ⟨b, h a (by simp) b, ih (fun x hx b' => h x (by simp [hx]) b') b⟩

/-! ## Claims -/

/-- Claim C1: for every input passing validation, the coloring returned by
the entry point is a proper coloring of the computed distance-2 adjacency:
for every pair of DOFs `(i, j)` with `j` in the distance-2 neighbor list of
`i`, `coloring[i] ≠ coloring[j]`.  (The bound `n_dofs < 2 ^ 64` is implicit
in the Rust `usize` argument type.) -/
theorem C1_proper_coloring {row_ptr col_idx : List Int} {n_dofs : ℕ}
    (hn : n_dofs < 2 ^ 64)
    {colors : List ℕ} {seeds : List (List ℚ)}
    (hok : distance2_color_and_seeds row_ptr col_idx n_dofs =
      Except.ok (colors, seeds))
    {adjacency adj2 : List (List ℕ)}
    (hadj : buildAdjacency row_ptr col_idx n_dofs = some adjacency)
    (hadj2 : distance2_adjacency adjacency = some adj2)
    {i j : ℕ} (hmem : j ∈ adj2.getD i []) :
    colors[i]? ≠ colors[j]? := by
  obtain ⟨hlen, adjacency', adj2', hadj', hadj2', hcolors, hseeds⟩ :=
    entry_ok_destruct hok
  rw [hadj] at hadj'
  injection hadj' with he
  subst he
  rw [hadj2] at hadj2'
  injection hadj2' with he2
  subst he2
  obtain ⟨hlen2, hchar, hbound, hsym, hirr, hsortednodup⟩ :=
    distance2_adjacency_props hadj2
  have hbnd2 : ∀ a b, b ∈ adj2.getD a [] → b < adj2.length :=
    fun a b hb => (hbound a b hb).2
  have hnod2 : ∀ a, (adj2.getD a []).Nodup := fun a => (hsortednodup a).2
  have hnle : adj2.length ≤ USIZE_MAX := by
    rw [hlen2, buildAdjacency_length hadj]
    unfold USIZE_MAX
    omega
  obtain ⟨hclen, hunass, hass⟩ := greedy_color_inv hbnd2 hsym hirr hnod2 hnle
  subst hcolors
  have hi : i < adj2.length := lt_length_of_mem_getD hmem
  have hj : j < adj2.length := hbnd2 i j hmem
  have hilen : i < (greedy_color adj2).length := by
    rw [greedy_color_length]
    exact hi
  have hisome := List.getElem?_eq_getElem hilen
  intro heq
  exact (hass i _ hi hisome).2.1 j hmem hj (by rw [← heq]; exact hisome)

/-- Claim C1 witness: on the 2-DOF symmetric pair pattern the two adjacent
DOFs receive different colors. -/
theorem C1_proper_coloring_witness :
    (([0, 1] : List ℕ)[0]? ≠ ([0, 1] : List ℕ)[1]?) :=
  @C1_proper_coloring [0, 1, 2] [1, 0] 2 (by decide) [0, 1] [[1, 0], [0, 1]]
    (by decide) [[1], [0]] [[1], [0]] (by decide) (by decide) 0 1 (by decide)

/-- Claim C2 counterexample: on the 1-hop adjacency `[[2], [2], []]` (rows
`0` and `1` both reference DOF `2`), DOF `1` is reachable from DOF `0` in
two hops of the symmetrized graph, yet the expander's row for DOF `0` is
exactly `[2]`, which does not contain `1` — so the expander does not produce
the full symmetric two-hop neighborhood. -/
theorem C2_counterexample :
    distance2_adjacency [[2], [2], []] = some [[2], [2], [0, 1]] ∧
    specDist2 [[2], [2], []] 0 1 ∧
    1 ∉ ([[2], [2], [0, 1]] : List (List ℕ)).getD 0 [] := by
  refine ⟨by decide, ⟨by decide, Or.inr ⟨2, by decide, Or.inl (by decide),
    Or.inr (by decide)⟩⟩, by decide⟩

/-- Claim C2 as amended: the distance-2 expander produces for each DOF `i`
exactly the DOFs `m ≠ i` reachable by a directed path of at most two hops
from `i` to `m` or from `m` to `i` in the 1-hop lists (the union of `i`'s
row and the rows referenced by it, symmetrized pairwise) — not the full
two-hop neighborhood of the symmetrized graph. -/
theorem C2_amended {adjacency adj2 : List (List ℕ)}
    (h : distance2_adjacency adjacency = some adj2) (i m : ℕ) :
    m ∈ adj2.getD i [] ↔ codeDist2 adjacency i m :=
  (distance2_adjacency_props h).2.1 i m

/-- Claim C2 amended witness: a concrete instantiation on the asymmetric
counterexample pattern. -/
theorem C2_amended_witness :
    0 ∈ ([[2], [2], [0, 1]] : List (List ℕ)).getD 2 [] ↔
      codeDist2 [[2], [2], []] 2 0 :=
  C2_amended (by decide) 2 0

/-- On an empty `row_ptr` with at least one DOF, the adjacency build panics
at the very first offset lookup. -/
theorem buildAdjacency_nil_rowptr (col_idx : List Int) {n_dofs : ℕ}
    (h : 0 < n_dofs) : buildAdjacency [] col_idx n_dofs = none := by
  unfold buildAdjacency
  obtain ⟨m, rfl⟩ : ∃ m, n_dofs = m + 1 := ⟨n_dofs - 1, by omega⟩
  rw [List.range_succ_eq_map, List.mapM_cons]
  rfl

/-- Claim C5 counterexample: at `row_ptr = []`, `n_dofs = usize::MAX`, the
mathematical inequality `row_ptr.length ≠ n_dofs + 1` holds, yet the program
does not raise the `InvalidArgument` validation error: the wrapped `usize`
comparison `0 != usize::MAX + 1 = 0` passes, and the run ends in a panic
instead. -/
theorem C5_counterexample :
    (([] : List Int).length ≠ (2 ^ 64 - 1) + 1) ∧
    distance2_color_and_seeds [] [] (2 ^ 64 - 1) =
      Except.error CsError.outOfBounds := by
  constructor
  · intro h
    rw [List.length_nil] at h
    omega
  · unfold distance2_color_and_seeds distance2_color_and_seedsWith
    rw [if_neg (show ¬ (([] : List Int).length % 2 ^ 64 ≠
        ((2 ^ 64 - 1) + 1) % 2 ^ 64) from by
      rw [List.length_nil]
      omega)]
    rw [buildAdjacency_nil_rowptr [] (by norm_num)]

/-- Claim C5 as amended: the entry point fails with the single
`InvalidArgument`-kind validation error exactly when `row_ptr.length`
differs from the `usize` value of `n_dofs + 1`, i.e. from `(n_dofs + 1)`
reduced modulo `2 ^ 64` — for every `n_dofs < usize::MAX` this is exactly
`row_ptr.length ≠ n_dofs + 1` — the check happening before any adjacency,
coloring, or seed computation so that no output is produced on failure, and
no other checked failure mode exists at this boundary. -/
theorem C5_amended (row_ptr col_idx : List Int) (n_dofs : ℕ) :
    distance2_color_and_seeds row_ptr col_idx n_dofs =
        Except.error CsError.invalidArgument ↔
      row_ptr.length % 2 ^ 64 ≠ (n_dofs + 1) % 2 ^ 64 := by
  unfold distance2_color_and_seeds distance2_color_and_seedsWith
  by_cases hlen : row_ptr.length % 2 ^ 64 ≠ (n_dofs + 1) % 2 ^ 64
  · rw [if_pos hlen]
    exact ⟨fun _ => hlen, fun _ => rfl⟩
  · rw [if_neg hlen]
    constructor
    · intro h
      split at h
      · exact absurd h (by decide)
      · split at h
        · exact absurd h (by decide)
        · exact Except.noConfusion h
    · intro hc
      exact absurd hc hlen

/-- Claim C7: the distance-2 adjacency handed to the colorer is per row
strictly sorted and duplicate-free, symmetric as a relation, and free of
self-loops, for every 1-hop input (in particular asymmetric ones). -/
theorem C7_adjacency_invariants {adjacency adj2 : List (List ℕ)}
    (hadj2 : distance2_adjacency adjacency = some adj2) :
    (∀ i, List.Sorted (· < ·) (adj2.getD i []) ∧ (adj2.getD i []).Nodup) ∧
    (∀ i j, j ∈ adj2.getD i [] ↔ i ∈ adj2.getD j []) ∧
    (∀ i, i ∉ adj2.getD i []) := by
  obtain ⟨_, _, _, hsym, hirr, hsorted⟩ := distance2_adjacency_props hadj2
  exact ⟨hsorted, fun i j => ⟨hsym i j, hsym j i⟩, hirr⟩

/-- Claim C7 witness: concrete instantiation on the asymmetric pattern
`[[2], [2], []]`. -/
theorem C7_adjacency_invariants_witness :
    (List.Sorted (· < ·) (([[2], [2], [0, 1]] : List (List ℕ)).getD 2 []) ∧
      (([[2], [2], [0, 1]] : List (List ℕ)).getD 2 []).Nodup) ∧
    (2 ∈ ([[2], [2], [0, 1]] : List (List ℕ)).getD 0 [] ↔
      0 ∈ ([[2], [2], [0, 1]] : List (List ℕ)).getD 2 []) ∧
    2 ∉ ([[2], [2], [0, 1]] : List (List ℕ)).getD 2 [] :=
  ⟨(@C7_adjacency_invariants [[2], [2], []] [[2], [2], [0, 1]] (by decide)).1 2,
   (@C7_adjacency_invariants [[2], [2], []] [[2], [2], [0, 1]] (by decide)).2.1 0 2,
   (@C7_adjacency_invariants [[2], [2], []] [[2], [2], [0, 1]] (by decide)).2.2 2⟩

/-- Claim C8: the empty input (`n_dofs = 0`, `row_ptr = [0]`,
`col_idx = []`) succeeds and returns an empty coloring and no seed
vectors. -/
theorem C8_empty_input :
    distance2_color_and_seeds [0] [] 0 = Except.ok ([], []) := by decide

/-- The canonical emission function satisfies the emission contract. -/
theorem sortFinset_emitSpec : EmitSpec sortFinset :=
  fun s => ⟨sortFinset_sorted_le s, List.Perm.refl _⟩

/-- Claim C6: the entry point is deterministic.  The only internal source of
nondeterminism is the iteration order of the randomly seeded hash sets; any
two emission functions that iterate each per-DOF set in some order and sort
the result (the `EmitSpec` contract) give identical colorings and identical
seed vectors on every input. -/
theorem C6_determinism {emit1 emit2 : Finset ℕ → List ℕ}
    (h1 : EmitSpec emit1) (h2 : EmitSpec emit2)
    (row_ptr col_idx : List Int) (n_dofs : ℕ) :
    distance2_color_and_seedsWith emit1 row_ptr col_idx n_dofs =
      distance2_color_and_seedsWith emit2 row_ptr col_idx n_dofs := by
  rw [distance2_color_and_seedsWith_emitSpec h1,
    distance2_color_and_seedsWith_emitSpec h2]

/-- Claim C6 witness: concrete instantiation with the canonical emission
function on a concrete input. -/
theorem C6_determinism_witness :
    distance2_color_and_seedsWith sortFinset [0, 1, 2] [1, 0] 2 =
      distance2_color_and_seedsWith sortFinset [0, 1, 2] [1, 0] 2 :=
  C6_determinism sortFinset_emitSpec sortFinset_emitSpec [0, 1, 2] [1, 0] 2

/-- Claim C3: on any validated input with `n_dofs > 0`, the seed generator
returns exactly `max_color + 1` vectors, each of length `n_dofs`, with
`seed[c][idx] = 1` iff `coloring[idx] = c` and `0` otherwise; hence each DOF
carries a `1` in exactly the vector at position `coloring[idx]`. -/
theorem C3_seed_partition {row_ptr col_idx : List Int} {n_dofs : ℕ}
    (hpos : 0 < n_dofs)
    {colors : List ℕ} {seeds : List (List ℚ)}
    (hok : distance2_color_and_seeds row_ptr col_idx n_dofs =
      Except.ok (colors, seeds)) :
    colors.length = n_dofs ∧
    seeds.length = colors.max?.getD 0 + 1 ∧
    (∀ s, s ∈ seeds → s.length = n_dofs) ∧
    (∀ c s, seeds[c]? = some s → ∀ idx, idx < n_dofs →
      s[idx]? = some (if colors[idx]? = some c then (1 : ℚ) else 0)) := by
  obtain ⟨hlen, adjacency, adj2, hadj, hadj2, hcolors, hseeds⟩ :=
    entry_ok_destruct hok
  have hclen : colors.length = n_dofs := by
    rw [hcolors, greedy_color_length,
      (distance2_adjacency_props hadj2).1, buildAdjacency_length hadj]
  have hcne : colors ≠ [] := by
    intro he
    rw [he] at hclen
    simp at hclen
    omega
  have hseeds2 : seeds = seeds_from_colors colors := by rw [hseeds, hcolors]
  obtain ⟨hslen, hschar⟩ := seeds_from_colors_char hcne
  refine ⟨hclen, by rw [hseeds2]; exact hslen, ?_, ?_⟩
  · intro s hs
    obtain ⟨c, hc⟩ := List.mem_iff_getElem?.mp hs
    rw [hseeds2] at hc
    rw [← hclen]
    exact (hschar c s hc).1
  · intro c s hs idx hidx
    rw [hseeds2] at hs
    exact (hschar c s hs).2 idx (by rw [hclen]; exact hidx)

/-- Claim C3 witness: concrete instantiation on the 2-DOF pair pattern. -/
theorem C3_seed_partition_witness :
    ([0, 1] : List ℕ).length = 2 ∧
    ([[1, 0], [0, 1]] : List (List ℚ)).length = ([0, 1] : List ℕ).max?.getD 0 + 1 ∧
    (∀ s, s ∈ ([[1, 0], [0, 1]] : List (List ℚ)) → s.length = 2) ∧
    (∀ c s, ([[1, 0], [0, 1]] : List (List ℚ))[c]? = some s → ∀ idx, idx < 2 →
      s[idx]? = some (if ([0, 1] : List ℕ)[idx]? = some c then (1 : ℚ) else 0)) :=
  @C3_seed_partition [0, 1, 2] [1, 0] 2 (by decide) [0, 1] [[1, 0], [0, 1]]
    (by decide)

/-- Claim C4: on any validated input with `n_dofs > 0`, the set of assigned
colors is downward closed — every value at most an assigned color is itself
assigned, so the colors used are exactly `{0, ..., max_color}` with no gaps —
and consequently every generated seed vector contains at least one `1`
entry.  (The bound `n_dofs < 2 ^ 64` is implicit in the Rust `usize`
argument type.) -/
theorem C4_color_contiguity {row_ptr col_idx : List Int} {n_dofs : ℕ}
    (hpos : 0 < n_dofs) (hn : n_dofs < 2 ^ 64)
    {colors : List ℕ} {seeds : List (List ℚ)}
    (hok : distance2_color_and_seeds row_ptr col_idx n_dofs =
      Except.ok (colors, seeds)) :
    (∀ c, c ∈ colors → ∀ c', c' ≤ c → c' ∈ colors) ∧
    (∀ s, s ∈ seeds → (1 : ℚ) ∈ s) := by
  obtain ⟨hlen, adjacency, adj2, hadj, hadj2, hcolors, hseeds⟩ :=
    entry_ok_destruct hok
  obtain ⟨hlen2, hchar, hbound, hsym, hirr, hsortednodup⟩ :=
    distance2_adjacency_props hadj2
  have hbnd2 : ∀ a b, b ∈ adj2.getD a [] → b < adj2.length :=
    fun a b hb => (hbound a b hb).2
  have hnod2 : ∀ a, (adj2.getD a []).Nodup := fun a => (hsortednodup a).2
  have hnadj : adj2.length = n_dofs := by
    rw [hlen2, buildAdjacency_length hadj]
  have hnle : adj2.length ≤ USIZE_MAX := by
    rw [hnadj]
    unfold USIZE_MAX
    omega
  obtain ⟨hclen, hunass, hass⟩ := greedy_color_inv hbnd2 hsym hirr hnod2 hnle
  subst hcolors
  have hdown : ∀ c, c ∈ greedy_color adj2 → ∀ c', c' ≤ c →
      c' ∈ greedy_color adj2 := by
    intro c hc c' hc'
    obtain ⟨k, hk⟩ := List.mem_iff_getElem?.mp hc
    have hkn : k < adj2.length := by
      by_contra hge
      push_neg at hge
      rw [List.getElem?_eq_none (by rw [greedy_color_length]; exact hge)] at hk
      cases hk
    rcases Nat.eq_or_lt_of_le hc' with he | hlt
    · exact he ▸ hc
    · obtain ⟨m, _, hmc⟩ := (hass k c hkn hk).2.2 c' hlt
      exact List.getElem?_mem hmc
  refine ⟨hdown, ?_⟩
  intro s hs
  obtain ⟨c, hcs⟩ := List.mem_iff_getElem?.mp hs
  have hclen2 : (greedy_color adj2).length = n_dofs := by
    rw [greedy_color_length, hnadj]
  have hcne : greedy_color adj2 ≠ [] := by
    intro he
    rw [he] at hclen2
    simp at hclen2
    omega
  obtain ⟨hslen, hschar⟩ := seeds_from_colors_char hcne
  rw [hseeds] at hcs
  have hcb : c < (greedy_color adj2).max?.getD 0 + 1 := by
    by_contra hge
    push_neg at hge
    rw [List.getElem?_eq_none (by rw [hslen]; exact hge)] at hcs
    cases hcs
  obtain ⟨mx, hmx, hmxmem, hmxub⟩ := max?_spec hcne
  have hgd : (greedy_color adj2).max?.getD 0 = mx := by rw [hmx]; rfl
  rw [hgd] at hcb
  have hcmem : c ∈ greedy_color adj2 := hdown mx hmxmem c (by omega)
  obtain ⟨idx, hidx⟩ := List.mem_iff_getElem?.mp hcmem
  have hidxn : idx < (greedy_color adj2).length := by
    by_contra hge
    push_neg at hge
    rw [List.getElem?_eq_none hge] at hidx
    cases hidx
  have hval := (hschar c s hcs).2 idx hidxn
  rw [hidx, if_pos rfl] at hval
  exact List.getElem?_mem hval

/-- Claim C4 witness: concrete instantiation on the 2-DOF pair pattern. -/
theorem C4_color_contiguity_witness :
    (∀ c, c ∈ ([0, 1] : List ℕ) → ∀ c', c' ≤ c → c' ∈ ([0, 1] : List ℕ)) ∧
    (∀ s, s ∈ ([[1, 0], [0, 1]] : List (List ℚ)) → (1 : ℚ) ∈ s) :=
  @C4_color_contiguity [0, 1, 2] [1, 0] 2 (by decide) (by decide)
    [0, 1] [[1, 0], [0, 1]] (by decide)

/-! ## The diagonal-only (identity) pattern -/

/-- On a row equal to `[i]`, the row step of the accumulation inserts
nothing: both guards `i != j` and `k != i` are false. -/
theorem d2RowStep_self {adjacency : List (List ℕ)} {i : ℕ}
    {sets : List (Finset ℕ)} (hget : adjacency[i]? = some [i]) :
    d2RowStep adjacency i sets i = some sets := by
  unfold d2RowStep
  rw [if_neg (fun h => h rfl)]
  show (match adjacency[i]? with
    | none => none
    | some adjJ => adjJ.foldlM (d2Inner i) sets) = some sets
  rw [hget]
  show List.foldlM (d2Inner i) sets [i] = some sets
  have h1 : d2Inner i sets i = some sets := by
    unfold d2Inner
    rw [if_neg (fun h => h rfl)]
  rw [List.foldlM_cons, h1]
  rfl

/-- On the identity 1-hop adjacency, the accumulation phase records
nothing. -/
theorem d2Sets_identity (n : ℕ) :
    d2Sets ((List.range n).map (fun i => [i])) =
      some (List.replicate n (∅ : Finset ℕ)) := by
  unfold d2Sets
  have hlen : ((List.range n).map (fun i => [i])).length = n := by
    rw [List.length_map, List.length_range]
  rw [hlen]
  apply foldlM_option_id
  intro p hp sets
  obtain ⟨hp1, hp2⟩ := enum_pair_eq hp
  have hrowelem : ((List.range n).map (fun i => [i]))[p.1] = [p.1] := by
    rw [List.getElem_map, List.getElem_range]
  have hrow : ((List.range n).map (fun i => [i])).getD p.1 [] = [p.1] := by
    rw [List.getD_eq_getElem ((List.range n).map (fun i => [i])) [] hp1]
    exact hrowelem
  rw [hp2, hrow]
  unfold d2Row
  have hget : ((List.range n).map (fun i => [i]))[p.1]? = some [p.1] := by
    rw [List.getElem?_eq_getElem hp1, hrowelem]
  rw [List.foldlM_cons, d2RowStep_self hget]
  rfl

/-- On the identity 1-hop adjacency, the distance-2 adjacency is empty for
every DOF. -/
theorem distance2_adjacency_identity (n : ℕ) :
    distance2_adjacency ((List.range n).map (fun i => [i])) =
      some (List.replicate n []) := by
  unfold distance2_adjacency distance2_adjacencyWith
  rw [d2Sets_identity n]
  show some ((List.replicate n (∅ : Finset ℕ)).map sortFinset) =
    some (List.replicate n [])
  rw [List.map_replicate]
  rfl

/-- Entrywise value of the coloring fold over rows with no neighbors: each
visited position receives color `0`. -/
theorem greedyFold_nil_rows :
    ∀ (m t : ℕ) (colors : List ℕ) (idx : ℕ),
      ((List.enumFrom t (List.replicate m ([] : List ℕ))).foldl
          greedyStep colors)[idx]? =
        if t ≤ idx ∧ idx < t + m then
          (if idx < colors.length then some 0 else none)
        else colors[idx]? := by
  intro m
  induction m with
  | zero =>
    intro t colors idx
    rw [if_neg (show ¬ (t ≤ idx ∧ idx < t + 0) from fun hh => by omega)]
    rfl
  | succ m ih =>
    intro t colors idx
    rw [List.replicate_succ, List.enumFrom_cons, List.foldl_cons]
    have hstep : greedyStep colors (t, ([] : List ℕ)) = colors.set t 0 := rfl
    rw [hstep, ih (t + 1) (colors.set t 0) idx, List.length_set]
    by_cases h1 : t + 1 ≤ idx ∧ idx < t + 1 + m
    · rw [if_pos h1,
        if_pos (show t ≤ idx ∧ idx < t + (m + 1) from by omega)]
    · rw [if_neg h1, List.getElem?_set]
      by_cases h2 : t = idx
      · subst h2
        rw [if_pos rfl]
        by_cases h3 : t < colors.length
        · rw [if_pos h3,
            if_pos (show t ≤ t ∧ t < t + (m + 1) from by omega)]
        · rw [if_neg h3,
            if_pos (show t ≤ t ∧ t < t + (m + 1) from by omega)]
      · rw [if_neg h2,
          if_neg (show ¬ (t ≤ idx ∧ idx < t + (m + 1)) from fun hh => by omega)]

/-- Greedy coloring of the edgeless distance-2 adjacency: every DOF gets
color `0`. -/
theorem greedy_color_nil_rows (n : ℕ) :
    greedy_color (List.replicate n ([] : List ℕ)) = List.replicate n 0 := by
  unfold greedy_color
  rw [List.enum_eq_enumFrom, List.length_replicate]
  apply List.ext_getElem?
  intro idx
  rw [greedyFold_nil_rows n 0 _ idx, List.length_replicate,
    List.getElem?_replicate, List.getElem?_replicate]
  by_cases h : idx < n
  · rw [if_pos (show 0 ≤ idx ∧ idx < 0 + n from by omega), if_pos h]
  · rw [if_neg (show ¬ (0 ≤ idx ∧ idx < 0 + n) from fun hh => by omega),
      if_neg h, if_neg h]

/-- Seeds of the all-zero coloring: a single all-ones vector. -/
theorem seeds_from_colors_const_zero {n : ℕ} (h : 0 < n) :
    seeds_from_colors (List.replicate n 0) = [List.replicate n (1 : ℚ)] := by
  have hne : List.replicate n (0 : ℕ) ≠ [] := by
    intro he
    have hl := congrArg List.length he
    rw [List.length_replicate] at hl
    simp at hl
    omega
  unfold seeds_from_colors
  rw [if_neg hne]
  obtain ⟨mx, hmx, hmxmem, _⟩ := max?_spec hne
  have hmx0 : mx = 0 := by
    rw [List.mem_replicate] at hmxmem
    exact hmxmem.2
  rw [hmx, hmx0]
  have hfold : ((List.replicate n (0 : ℕ)).enum).foldl (seedStep 0)
      (List.replicate (List.replicate n (0 : ℕ)).length (0 : ℚ)) =
      List.replicate n (1 : ℚ) := by
    rw [List.enum_eq_enumFrom, List.length_replicate]
    apply List.ext_getElem?
    intro idx
    rw [seedFold_getElem 0 (List.replicate n 0) 0 _ idx, List.length_replicate,
      Nat.sub_zero]
    simp only [List.getElem?_replicate]
    by_cases hI : idx < n
    · simp [hI]
    · simp [hI]
  simp only [Option.getD_some]
  rw [show List.range (0 + 1) = [0] from rfl, List.map_cons, List.map_nil]
  rw [hfold]

/-- Claim C9: for every validated input with `n_dofs > 0` whose built 1-hop
adjacency is the identity (diagonal-only) pattern — each row `i` listing
exactly `[i]` — every distance-2 neighbor set is empty, every DOF receives
color `0`, and the output is one all-ones seed vector of length
`n_dofs`. -/
theorem C9_identity_pattern {row_ptr col_idx : List Int} {n_dofs : ℕ}
    (hpos : 0 < n_dofs) (hlen : row_ptr.length = n_dofs + 1)
    (hadj : buildAdjacency row_ptr col_idx n_dofs =
      some ((List.range n_dofs).map (fun i => [i]))) :
    distance2_color_and_seeds row_ptr col_idx n_dofs =
      Except.ok (List.replicate n_dofs 0, [List.replicate n_dofs (1 : ℚ)]) := by
  rw [entry_eq_of_pieces hlen hadj (distance2_adjacency_identity n_dofs)]
  rw [greedy_color_nil_rows, seeds_from_colors_const_zero hpos]

/-- Claim C9 witness: the 3-DOF diagonal pattern. -/
theorem C9_identity_pattern_witness :
    distance2_color_and_seeds [0, 1, 2, 3] [0, 1, 2] 3 =
      Except.ok (List.replicate 3 0, [List.replicate 3 (1 : ℚ)]) :=
  @C9_identity_pattern [0, 1, 2, 3] [0, 1, 2] 3 (by decide) (by decide)
    (by decide)

/-! ## Totality of the pipeline on well-formed input -/

/-- The `as usize` cast is plain truncation on in-range nonnegative
values. -/
theorem intToUsize_eq_toNat {v : Int} (h0 : 0 ≤ v) (h1 : v < 2 ^ 64) :
    intToUsize v = v.toNat := by
  unfold intToUsize
  rw [Int.emod_eq_of_lt h0 h1]

/-- A slice with ordered in-range bounds succeeds. -/
theorem sliceRange_some {l : List Int} {s e : ℕ} (h1 : s ≤ e)
    (h2 : e ≤ l.length) :
    sliceRange l s e = some ((l.drop s).take (e - s)) := by
  unfold sliceRange
  rw [if_pos (And.intro h1 h2)]

/-- One row of `buildAdjacency` on successful lookups and an in-range
slice. -/
theorem buildRow_eq {row_ptr col_idx : List Int} {i : ℕ} {s e : Int}
    (hs : row_ptr[i]? = some s) (he : row_ptr[i + 1]? = some e)
    (h1 : intToUsize s ≤ intToUsize e) (h2 : intToUsize e ≤ col_idx.length) :
    (do
      let s ← row_ptr[i]?
      let e ← row_ptr[i + 1]?
      let slice ← sliceRange col_idx (intToUsize s) (intToUsize e)
      pure (slice.map intToUsize)) =
      some (((col_idx.drop (intToUsize s)).take
        (intToUsize e - intToUsize s)).map intToUsize) := by
  rw [hs, he]
  show (do
    let slice ← sliceRange col_idx (intToUsize s) (intToUsize e)
    pure (slice.map intToUsize) : Option (List ℕ)) = _
  rw [sliceRange_some h1 h2]
  rfl

/-- `d2Inner` succeeds on in-range indices and preserves the length. -/
theorem d2Inner_total {i k : ℕ} {sets : List (Finset ℕ)}
    (hi : i < sets.length) (hk : k < sets.length) :
    ∃ sets', d2Inner i sets k = some sets' ∧ sets'.length = sets.length := by
  unfold d2Inner
  by_cases hki : k ≠ i
  · rw [if_pos hki]
    obtain ⟨sets', hs⟩ := d2Pair_total hi hk
    obtain ⟨_, _, hlen, _⟩ := d2Pair_eq_some hs
    exact ⟨sets', hs, hlen⟩
  · rw [if_neg hki]
    exact ⟨sets, rfl, rfl⟩

/-- `d2RowStep` succeeds when all indices involved are in range. -/
theorem d2RowStep_total {adjacency : List (List ℕ)} {i j : ℕ}
    {sets : List (Finset ℕ)}
    (hlen : sets.length = adjacency.length)
    (hi : i < adjacency.length) (hj : j < adjacency.length)
    (hentries : ∀ a b, b ∈ adjacency.getD a [] → b < adjacency.length) :
    ∃ sets', d2RowStep adjacency i sets j = some sets' ∧
      sets'.length = sets.length := by
  have hi2 : i < sets.length := by rw [hlen]; exact hi
  have hj2 : j < sets.length := by rw [hlen]; exact hj
  have hstage1 : ∃ sets1, (if i ≠ j then d2Pair sets i j else some sets) =
      some sets1 ∧ sets1.length = sets.length := by
    by_cases hij : i ≠ j
    · rw [if_pos hij]
      obtain ⟨sets1, hs⟩ := d2Pair_total hi2 hj2
      obtain ⟨_, _, hlen1, _⟩ := d2Pair_eq_some hs
      exact ⟨sets1, hs, hlen1⟩
    · rw [if_neg hij]
      exact ⟨sets, rfl, rfl⟩
  obtain ⟨sets1, h1, hlen1⟩ := hstage1
  have hgetJ : adjacency[j]? = some (adjacency.getD j []) := by
    rw [List.getD_eq_getElem adjacency [] hj]
    exact List.getElem?_eq_getElem hj
  have hfold : ∃ sets', (adjacency.getD j []).foldlM (d2Inner i) sets1 =
      some sets' ∧ sets'.length = sets1.length := by
    refine foldlM_option_total (fun s => s.length = sets1.length)
      (d2Inner i) (adjacency.getD j []) ?_ sets1 rfl
    intro k hk b hb
    have hk2 : k < b.length := by
      rw [hb, hlen1, hlen]
      exact hentries j k hk
    have hi3 : i < b.length := by
      rw [hb, hlen1]
      exact hi2
    obtain ⟨b', hb', hblen⟩ := d2Inner_total hi3 hk2
    refine ⟨b', hb', ?_⟩
    show b'.length = sets1.length
    rw [hblen, hb]
  obtain ⟨sets', h2, hlen2⟩ := hfold
  refine ⟨sets', ?_, by rw [hlen2, hlen1]⟩
  unfold d2RowStep
  rw [h1]
  show (match adjacency[j]? with
    | none => none
    | some adjJ => adjJ.foldlM (d2Inner i) sets1) = some sets'
  rw [hgetJ]
  show (adjacency.getD j []).foldlM (d2Inner i) sets1 = some sets'
  exact h2

/-- The accumulation phase succeeds when every recorded index is in
range. -/
theorem d2Sets_total {adjacency : List (List ℕ)}
    (hentries : ∀ a b, b ∈ adjacency.getD a [] → b < adjacency.length) :
    ∃ sets, d2Sets adjacency = some sets := by
  unfold d2Sets
  have hres := foldlM_option_total (fun s => s.length = adjacency.length)
    (fun sets p => d2Row adjacency p.1 sets p.2) adjacency.enum ?_
    (List.replicate adjacency.length ∅) (List.length_replicate _ _)
  · obtain ⟨sets, hs, _⟩ := hres
    exact ⟨sets, hs⟩
  · intro p hp sets hslen
    obtain ⟨hp1, hp2⟩ := enum_pair_eq hp
    unfold d2Row
    refine foldlM_option_total (fun s => s.length = adjacency.length)
      (d2RowStep adjacency p.1) p.2 ?_ sets hslen
    intro j hj b hblen
    have hjn : j < adjacency.length := by
      refine hentries p.1 j ?_
      rw [← hp2]
      exact hj
    obtain ⟨b', hb', hblen'⟩ := d2RowStep_total hblen hp1 hjn hentries
    refine ⟨b', hb', ?_⟩
    show b'.length = adjacency.length
    rw [hblen', hblen]

/-- Claim C10: under the full CSR well-formedness precondition — correct
`row_ptr` length, nonnegative monotone offsets whose last entry is at most
`col_idx.length`, every column index in `[0, n_dofs)`, and values within the
`i64`/`usize` machine range — no slice or index operation goes out of bounds
and the entry point totally returns a result. -/
theorem C10_no_panic {row_ptr col_idx : List Int} {n_dofs : ℕ}
    (hlen : row_ptr.length = n_dofs + 1)
    (hmono : ∀ i, i < n_dofs → row_ptr.getD i 0 ≤ row_ptr.getD (i + 1) 0)
    (hnonneg : ∀ v, v ∈ row_ptr → 0 ≤ v)
    (hlast : row_ptr.getD n_dofs 0 ≤ (col_idx.length : Int))
    (hcol : ∀ v, v ∈ col_idx → 0 ≤ v ∧ v < (n_dofs : Int))
    (hsz : (col_idx.length : Int) < 2 ^ 64)
    (hnsz : (n_dofs : Int) < 2 ^ 64) :
    ∃ result, distance2_color_and_seeds row_ptr col_idx n_dofs =
      Except.ok result := by
  have hchain : ∀ j, j ≤ n_dofs → ∀ i, i ≤ j →
      row_ptr.getD i 0 ≤ row_ptr.getD j 0 := by
    intro j
    induction j with
    | zero =>
      intro _ i hi
      have h0 : i = 0 := by omega
      rw [h0]
    | succ j ihj =>
      intro hj i hi
      rcases Nat.eq_or_lt_of_le hi with he | hlt
      · rw [he]
      · exact le_trans (ihj (by omega) i (by omega)) (hmono j (by omega))
  have hval : ∀ i, i ≤ n_dofs → 0 ≤ row_ptr.getD i 0 := by
    intro i hi
    have hil : i < row_ptr.length := by omega
    rw [List.getD_eq_getElem row_ptr 0 hil]
    exact hnonneg _ (List.getElem_mem hil)
  have hub : ∀ i, i ≤ n_dofs → row_ptr.getD i 0 ≤ (col_idx.length : Int) :=
    fun i hi => le_trans (hchain n_dofs (le_refl _) i hi) hlast
  have hbounds : ∀ i, i < n_dofs →
      intToUsize (row_ptr.getD i 0) ≤ intToUsize (row_ptr.getD (i + 1) 0) ∧
      intToUsize (row_ptr.getD (i + 1) 0) ≤ col_idx.length := by
    intro i hi
    have h0a := hval i (by omega)
    have h0b := hval (i + 1) (by omega)
    have huba := hub i (by omega)
    have hubb := hub (i + 1) (by omega)
    have hm := hmono i hi
    constructor
    · rw [intToUsize_eq_toNat h0a (by omega), intToUsize_eq_toNat h0b (by omega)]
      exact Int.toNat_le_toNat hm
    · rw [intToUsize_eq_toNat h0b (by omega)]
      exact Int.toNat_le.mpr hubb
  have hgetRP : ∀ i, i ≤ n_dofs → row_ptr[i]? = some (row_ptr.getD i 0) := by
    intro i hi
    have hil : i < row_ptr.length := by omega
    rw [List.getD_eq_getElem row_ptr 0 hil]
    exact List.getElem?_eq_getElem hil
  have hbuild : ∃ adjacency,
      buildAdjacency row_ptr col_idx n_dofs = some adjacency := by
    unfold buildAdjacency
    apply mapM_option_total
    intro i hi
    rw [List.mem_range] at hi
    exact ⟨_, buildRow_eq (hgetRP i (by omega)) (hgetRP (i + 1) (by omega))
      (hbounds i hi).1 (hbounds i hi).2⟩
  obtain ⟨adjacency, hadj⟩ := hbuild
  have hadjlen : adjacency.length = n_dofs := buildAdjacency_length hadj
  have hadjm := hadj
  unfold buildAdjacency at hadjm
  obtain ⟨_, hget⟩ := mapM_option_eq_some _ _ _ hadjm
  have hentries : ∀ a b, b ∈ adjacency.getD a [] → b < adjacency.length := by
    intro a b hb
    have ha : a < adjacency.length := lt_length_of_mem_getD hb
    have ha2 : a < n_dofs := by rw [← hadjlen]; exact ha
    obtain ⟨row, hrow, hrowget⟩ := hget a a (List.getElem?_range ha2)
    have hroweq := buildRow_eq (hgetRP a (by omega)) (hgetRP (a + 1) (by omega))
      (hbounds a ha2).1 (hbounds a ha2).2
    have hrow2 := hroweq.symm.trans hrow
    injection hrow2 with hrow3
    have hbrow : b ∈ row := by
      rw [List.getD_eq_getElem?_getD, hrowget] at hb
      exact hb
    rw [← hrow3, List.mem_map] at hbrow
    obtain ⟨v, hv, hvb⟩ := hbrow
    have hvcol : v ∈ col_idx := List.mem_of_mem_drop (List.mem_of_mem_take hv)
    obtain ⟨hv0, hvn⟩ := hcol v hvcol
    rw [← hvb, intToUsize_eq_toNat hv0 (by omega), hadjlen]
    exact (Int.toNat_lt hv0).mpr hvn
  obtain ⟨sets, hsets⟩ := d2Sets_total hentries
  have hadj2 : ∃ adj2, distance2_adjacency adjacency = some adj2 := by
    unfold distance2_adjacency distance2_adjacencyWith
    rw [hsets]
    exact ⟨_, rfl⟩
  obtain ⟨adj2, hadj2s⟩ := hadj2
  exact ⟨_, entry_eq_of_pieces hlen hadj hadj2s⟩

/-- Claim C10 witness: a concrete well-formed CSR input runs to
completion. -/
theorem C10_no_panic_witness :
    ∃ result, distance2_color_and_seeds [0, 1, 2] [1, 0] 2 =
      Except.ok result :=
  @C10_no_panic [0, 1, 2] [1, 0] 2 (by decide) (by decide) (by decide)
    (by decide) (by decide) (by decide) (by decide)
